import Mathlib

/-!
# Cuckoo hash map of `hashmap.c`: shallow embedding

The two-table cuckoo map of `src/hashmap.c` is embedded as pure functions over
an explicit state.

* A key or value buffer is a fixed-length byte string (`key_size` resp.
  `value_size` bytes), so a `memcpy` of the whole buffer is assignment and a
  `memcmp` over the whole length is equality of byte strings.
* A pointer that may be `NULL` is an `Option`; every slot owns its own two
  buffers (each comes from its own `malloc`), so a slot is a pair of options.
* Undefined behaviour (a copy through a `NULL` buffer, an access outside the
  `n` allocated slots, which includes the division by zero of `% h->n` when
  `n = 0`) aborts the computation with an `Abort` value.
* `SIP64` (from `siphash.h`) and the C library's `rand`/`RAND_MAX` are not part
  of the file; they are the fields of an environment `Env`, and the number of
  `rand()` calls made so far is threaded through as a counter.
* `HashMap_Put` and `HashMap_Grow` call each other; the embedding bounds the
  depth of these calls by a fuel argument and reports `Abort.outOfFuel` when
  it runs out.
* `size` is a `size_t`: the decrement of `HashMap_Remove` wraps at zero.  The
  increments are not reduced modulo `2^64`: in the reachable states `size` is
  at most `n + 1` (`reachable_inv`).  The capacity `n` stays far below `2^31`,
  so the `int` indices do not truncate.
-/

namespace Cdsl

/-- Byte strings: the contents of a key or value buffer. -/
abbrev Bytes := List Nat

/-- Ways in which a run of the C code can fail to return. -/
inductive Abort where
  | nullDeref
  | outOfBounds
  | outOfFuel
deriving DecidableEq

/-- The struct `KeyValue`: two owned buffers, each possibly `NULL`. -/
structure KeyValue where
  key : Option Bytes
  value : Option Bytes
deriving DecidableEq

/-- The struct `HashMap` as `hashmap.c` uses it. -/
structure HashMap where
  key_size : Nat
  value_size : Nat
  size : Nat
  n : Nat
  left : List KeyValue
  left_seed_0 : Nat
  left_seed_1 : Nat
  right : List KeyValue
  right_seed_0 : Nat
  right_seed_1 : Nat
deriving DecidableEq

/-- External collaborators of `hashmap.c`: the keyed digest `SIP64` of
`siphash.h`, the sequence of values returned by successive calls of `rand()`,
and the constant `RAND_MAX`. -/
structure Env where
  SIP64 : Bytes → Nat → Nat → Nat → Nat
  rand : Nat → Nat
  RAND_MAX : Nat

def HASHMAP_INITIAL_N : Nat := 32

/-- The function `rand_uint64`: five calls of `rand()` (for `i = 0, 15, 30, 45, 60`)
folded into a `uint64_t`; `g` counts the calls of `rand()` made before. -/
def rand_uint64 (env : Env) (g : Nat) : Nat × Nat :=
  ((List.range 5).foldl
      (fun r j => (r * (env.RAND_MAX + 1) + env.rand (g + j)) % 2 ^ 64) 0,
    g + 5)

/-- The function `hash`: the 64-bit digest of `len` bytes of `data`. -/
def hash (env : Env) (data : Bytes) (len seed0 seed1 : Nat) : Nat :=
  env.SIP64 data len seed0 seed1 % 2 ^ 64

/-- The function `_HashMap_Init`: `n` empty slots per table and four fresh seeds,
drawn in the order left 0, left 1, right 0, right 1. -/
def _HashMap_Init (env : Env) (n key_size value_size : Nat) (g : Nat) : HashMap × Nat :=
  let l0 := rand_uint64 env g
  let l1 := rand_uint64 env l0.2
  let r0 := rand_uint64 env l1.2
  let r1 := rand_uint64 env r0.2
  ({ key_size := key_size, value_size := value_size, size := 0, n := n,
     left := List.replicate n ⟨none, none⟩,
     left_seed_0 := l0.1, left_seed_1 := l1.1,
     right := List.replicate n ⟨none, none⟩,
     right_seed_0 := r0.1, right_seed_1 := r1.1 }, r1.2)

def HashMap_Init (env : Env) (key_size value_size : Nat) (g : Nat) : HashMap × Nat :=
  _HashMap_Init env HASHMAP_INITIAL_N key_size value_size g

/-- Reading the slot `table + i`. -/
def slotAt (table : List KeyValue) (i : Nat) : Except Abort KeyValue :=
  match table[i]? with
  | some s => .ok s
  | none => .error .outOfBounds

/-- Index of the left candidate slot of `key`. -/
def leftIndex (env : Env) (h : HashMap) (key : Bytes) : Nat :=
  hash env key h.key_size h.left_seed_0 h.left_seed_1 % h.n

/-- Index of the right candidate slot of `key`. -/
def rightIndex (env : Env) (h : HashMap) (key : Bytes) : Nat :=
  hash env key h.key_size h.right_seed_0 h.right_seed_1 % h.n

/-- The call `memcpy(buffer, pair->value, h->value_size)` of `HashMap_Get`, followed
by `return 0`. -/
def readValue (pair : KeyValue) : Except Abort (Nat × Bytes) :=
  match pair.value with
  | some v => .ok (0, v)
  | none => .error .nullDeref

/-- The function `HashMap_Get`: the return code and the contents of `buffer`
afterwards. -/
def HashMap_Get (env : Env) (h : HashMap) (key buffer : Bytes) :
    Except Abort (Nat × Bytes) :=
  match slotAt h.left (leftIndex env h key) with
  | .error e => .error e
  | .ok pair =>
    if pair.key = some key then readValue pair
    else
      match slotAt h.right (rightIndex env h key) with
      | .error e => .error e
      | .ok pair =>
        if pair.key = some key then readValue pair
        else .ok (1, buffer)

/-- The statement `h->size--` on a `size_t`. -/
def decSize (size : Nat) : Nat :=
  if size = 0 then 2 ^ 64 - 1 else size - 1

/-- The function `HashMap_Remove`: the return code and the map afterwards. -/
def HashMap_Remove (env : Env) (h : HashMap) (key : Bytes) :
    Except Abort (Nat × HashMap) :=
  match slotAt h.left (leftIndex env h key) with
  | .error e => .error e
  | .ok pair =>
    if pair.key = some key then
      .ok (0, { h with left := h.left.set (leftIndex env h key) ⟨none, none⟩,
                       size := decSize h.size })
    else
      match slotAt h.right (rightIndex env h key) with
      | .error e => .error e
      | .ok pair =>
        if pair.key = some key then
          .ok (0, { h with right := h.right.set (rightIndex env h key) ⟨none, none⟩,
                           size := decSize h.size })
        else .ok (1, h)

/-- What `displaced_pair` points to: the local `new_pair`, or a slot of one of
the tables. -/
inductive Displaced where
  | new_pair
  | left (i : Nat)
  | right (i : Nat)
deriving DecidableEq

/-- Reading `*displaced_pair` in the current map. -/
def derefDisplaced (h : HashMap) (key value : Bytes) : Displaced → Except Abort KeyValue
  | .new_pair => .ok ⟨some key, some value⟩
  | .left i => slotAt h.left i
  | .right i => slotAt h.right i

/-- One `memcpy(dst, src, len)` between two whole buffers. -/
def memcpy (dst src : Option Bytes) : Except Abort (Option Bytes) :=
  match dst, src with
  | some _, some s => .ok (some s)
  | _, _ => .error .nullDeref

/-- The pair of copies `memcpy(dst->key, src->key, ..); memcpy(dst->value, src->value, ..)`. -/
def copyPair (dst src : KeyValue) : Except Abort KeyValue :=
  match memcpy dst.key src.key with
  | .error e => .error e
  | .ok k =>
    match memcpy dst.value src.value with
    | .error e => .error e
    | .ok v => .ok ⟨k, v⟩

/-- The test `if (right_pair->key == NULL)` of both eviction steps: two fresh
buffers (contents indeterminate, written as the empty string; both are
overwritten by the copies that follow) and `exit_flag = 1`. -/
def allocIfEmpty (right_pair : KeyValue) : KeyValue × Bool :=
  if right_pair.key = none then (⟨some [], some []⟩, true) else (right_pair, false)

/-- The key bytes that `hash(pair->key, ...)` reads. -/
def readKey (pair : KeyValue) : Except Abort Bytes :=
  match pair.key with
  | some k => .ok k
  | none => .error .nullDeref

/-- Body of the eviction loop for even `i`; `pair` is still the right candidate
slot of `key`.  Returns the map and `exit_flag`. -/
def evictEven (env : Env) (h : HashMap) (key value : Bytes) (d : Displaced) :
    Except Abort (HashMap × Bool) :=
  let il := leftIndex env h key
  match slotAt h.left il with
  | .error e => .error e
  | .ok left_pair =>
    match slotAt h.right (rightIndex env h key) with
    | .error e => .error e
    | .ok pair =>
      match readKey pair with
      | .error e => .error e
      | .ok pk =>
        let ir := rightIndex env h pk
        match slotAt h.right ir with
        | .error e => .error e
        | .ok right_pair =>
          let a := allocIfEmpty right_pair
          match copyPair a.1 left_pair with
          | .error e => .error e
          | .ok right_new =>
            let h1 := { h with right := h.right.set ir right_new }
            match derefDisplaced h1 key value d with
            | .error e => .error e
            | .ok dp =>
              match copyPair left_pair dp with
              | .error e => .error e
              | .ok left_new =>
                let h2 := { h1 with left := h1.left.set il left_new }
                if a.2 then .ok ({ h2 with size := h2.size + 1 }, true)
                else .ok (h2, false)

/-- Body of the eviction loop for odd `i`.  Returns the map and `exit_flag`. -/
def evictOdd (env : Env) (h : HashMap) (key value : Bytes) (d : Displaced) :
    Except Abort (HashMap × Bool) :=
  let ir := rightIndex env h key
  match slotAt h.right ir with
  | .error e => .error e
  | .ok right_pair =>
    match readKey right_pair with
    | .error e => .error e
    | .ok pk =>
      let il := leftIndex env h pk
      match slotAt h.left il with
      | .error e => .error e
      | .ok left_pair =>
        let a := allocIfEmpty right_pair
        match copyPair left_pair a.1 with
        | .error e => .error e
        | .ok left_new =>
          let h1 := { h with left := h.left.set il left_new }
          match derefDisplaced h1 key value d with
          | .error e => .error e
          | .ok dp =>
            match copyPair a.1 dp with
            | .error e => .error e
            | .ok right_new =>
              let h2 := { h1 with right := h1.right.set ir right_new }
              if a.2 then .ok ({ h2 with size := h2.size + 1 }, true)
              else .ok (h2, false)

/-- The loop `for (int i = 0; i < 2*h->n; i++)` of `HashMap_Put`, with `steps`
iterations left.  The flag of the result tells whether the loop returned from
`HashMap_Put` (`true`) or ran to its bound (`false`). -/
def evictLoop (env : Env) (key value : Bytes) :
    Nat → Nat → HashMap → Displaced → Except Abort (HashMap × Bool)
  | 0, _, h, _ => .ok (h, false)
  | steps + 1, i, h, d =>
    if i % 2 = 0 then
      match evictEven env h key value d with
      | .error e => .error e
      | .ok (h1, true) => .ok (h1, true)
      | .ok (h1, false) =>
        evictLoop env key value steps (i + 1) h1 (.left (leftIndex env h key))
    else
      match evictOdd env h key value d with
      | .error e => .error e
      | .ok (h1, true) => .ok (h1, true)
      | .ok (h1, false) =>
        evictLoop env key value steps (i + 1) h1 (.right (rightIndex env h key))

/-- The loop of `HashMap_Grow` over the slot indices still to visit; `put` is
`HashMap_Put`.  A `NULL` value next to a present key is read by the `memcpy`
of `HashMap_Put`. -/
def growLoop (put : HashMap → Bytes → Bytes → Nat → Except Abort (HashMap × Nat))
    (h : HashMap) : List Nat → HashMap × Nat → Except Abort (HashMap × Nat)
  | [], acc => .ok acc
  | i :: rest, acc =>
    match slotAt h.left i with
    | .error e => .error e
    | .ok left =>
      match slotAt h.right i with
      | .error e => .error e
      | .ok right =>
        let afterLeft : Except Abort (HashMap × Nat) :=
          match left.key with
          | none => .ok acc
          | some k =>
            match left.value with
            | none => .error .nullDeref
            | some v => put acc.1 k v acc.2
        match afterLeft with
        | .error e => .error e
        | .ok acc1 =>
          let afterRight : Except Abort (HashMap × Nat) :=
            match right.key with
            | none => .ok acc1
            | some k =>
              match right.value with
              | none => .error .nullDeref
              | some v => put acc1.1 k v acc1.2
          match afterRight with
          | .error e => .error e
          | .ok acc2 => growLoop put h rest acc2

/-- The body of `HashMap_Grow` over a given `HashMap_Put`: a map of capacity
`2 * n` with fresh seeds receives every occupied slot of `h`, and replaces
`h` (whose buffers `HashMap_Free` releases). -/
def growWith (put : HashMap → Bytes → Bytes → Nat → Except Abort (HashMap × Nat))
    (env : Env) (h : HashMap) (g : Nat) : Except Abort (HashMap × Nat) :=
  growLoop put h (List.range h.n) (_HashMap_Init env (2 * h.n) h.key_size h.value_size g)

/-- The direct placement and update part of `HashMap_Put` together with the
eviction loop, after the load check.  The flag of the result is `true` when
`HashMap_Put` returned, `false` when the eviction loop ran to its bound. -/
def putNoGrow (env : Env) (h : HashMap) (key value : Bytes) :
    Except Abort (HashMap × Bool) :=
  let il := leftIndex env h key
  match slotAt h.left il with
  | .error e => .error e
  | .ok pair =>
    if pair.key = none then
      .ok ({ h with left := h.left.set il ⟨some key, some value⟩,
                    size := h.size + 1 }, true)
    else if pair.key = some key then
      .ok ({ h with left := h.left.set il ⟨pair.key, some value⟩,
                    size := h.size + 1 }, true)
    else
      let ir := rightIndex env h key
      match slotAt h.right ir with
      | .error e => .error e
      | .ok pair =>
        if pair.key = some key then
          .ok ({ h with right := h.right.set ir ⟨pair.key, some value⟩,
                        size := h.size + 1 }, true)
        else if pair.key = none then
          .ok ({ h with right := h.right.set ir ⟨some key, some value⟩,
                        size := h.size + 1 }, true)
        else
          evictLoop env key value (2 * h.n) 0 h .new_pair

/-- The function `HashMap_Put`; the first argument bounds the depth of the calls
between `HashMap_Put` and `HashMap_Grow`. -/
def HashMap_Put (env : Env) :
    Nat → HashMap → Bytes → Bytes → Nat → Except Abort (HashMap × Nat)
  | 0, _, _, _, _ => .error .outOfFuel
  | fuel + 1, h, key, value, g =>
    let loaded : Except Abort (HashMap × Nat) :=
      if h.size > h.n / 2 then growWith (HashMap_Put env fuel) env h g else .ok (h, g)
    match loaded with
    | .error e => .error e
    | .ok (h1, g1) =>
      match putNoGrow env h1 key value with
      | .error e => .error e
      | .ok (h2, true) => .ok (h2, g1)
      | .ok (h2, false) =>
        match growWith (HashMap_Put env fuel) env h2 g1 with
        | .error e => .error e
        | .ok (h3, g3) => HashMap_Put env fuel h3 key value g3

/-- The function `HashMap_Grow`, with the same fuel convention as `HashMap_Put`. -/
def HashMap_Grow (env : Env) (fuel : Nat) (h : HashMap) (g : Nat) :
    Except Abort (HashMap × Nat) :=
  growWith (HashMap_Put env fuel) env h g

/-! ## States, invariants and scenarios -/

/-- A map as the C code builds it: both tables have exactly `n` slots, `n > 0`. -/
def WF (h : HashMap) : Prop :=
  h.left.length = h.n ∧ h.right.length = h.n ∧ 0 < h.n

instance (h : HashMap) : Decidable (WF h) :=
  inferInstanceAs (Decidable (h.left.length = h.n ∧ h.right.length = h.n ∧ 0 < h.n))

/-- A call of the public interface that changes the map. -/
inductive Op where
  | put (key value : Bytes)
  | remove (key : Bytes)

/-- Running a list of calls, each `HashMap_Put` with the given fuel. -/
def run (env : Env) (fuel : Nat) : List Op → HashMap × Nat → Except Abort (HashMap × Nat)
  | [], s => .ok s
  | .put k v :: rest, s =>
    match HashMap_Put env fuel s.1 k v s.2 with
    | .ok s1 => run env fuel rest s1
    | .error e => .error e
  | .remove k :: rest, s =>
    match HashMap_Remove env s.1 k with
    | .ok r => run env fuel rest (r.2, s.2)
    | .error e => .error e

/-- The map states (with the count of `rand()` calls so far) that
`HashMap_Init` followed by returning calls of `HashMap_Put` and
`HashMap_Remove` can produce. -/
inductive Reachable (env : Env) : HashMap → Nat → Prop where
  | init (key_size value_size g : Nat) :
      Reachable env (HashMap_Init env key_size value_size g).1
        (HashMap_Init env key_size value_size g).2
  | put {h : HashMap} {g : Nat} (fuel : Nat) (key value : Bytes) {h1 : HashMap} {g1 : Nat} :
      Reachable env h g → HashMap_Put env fuel h key value g = .ok (h1, g1) →
      Reachable env h1 g1
  | remove {h : HashMap} {g : Nat} (key : Bytes) {rc : Nat} {h1 : HashMap} :
      Reachable env h g → HashMap_Remove env h key = .ok (rc, h1) →
      Reachable env h1 g

/-- The keys stored in the occupied slots, left table first. -/
def storedKeys (h : HashMap) : List Bytes :=
  (h.left ++ h.right).filterMap (fun s => s.key)

/-- No key is stored in more than one occupied slot across both tables. -/
def UniqueKeys (h : HashMap) : Prop :=
  (storedKeys h).Nodup

instance (h : HashMap) : Decidable (UniqueKeys h) :=
  inferInstanceAs (Decidable (storedKeys h).Nodup)

/-- Number of occupied slots (slots with a non-null key) of both tables. -/
def occupied (h : HashMap) : Nat :=
  (h.left ++ h.right).countP (fun s => s.key.isSome)

/-- Every occupied slot holds a key that its own table's digest maps to the
slot's index. -/
def PlacementInv (env : Env) (h : HashMap) : Prop :=
  (∀ i s x, slotAt h.left i = .ok s → s.key = some x → leftIndex env h x = i) ∧
  (∀ j s y, slotAt h.right j = .ok s → s.key = some y → rightIndex env h y = j)

deriving instance DecidableEq for Except

/-- An environment for the scenarios: the digest of a key is the byte of the
key that `seed0 mod 8` selects, `rand()` makes the eight seeds drawn by two
calls of `_HashMap_Init` come out as `0, 0, 1, 1, 2, 2, 3, 3`. -/
def toyEnv : Env where
  SIP64 := fun data _ seed0 _ => data.getD (seed0 % 8) 0
  rand := fun i => if i % 5 = 4 then i / 10 else 0
  RAND_MAX := 2147483647

/-- A table of `n` empty slots. -/
def emptyTable (n : Nat) : List KeyValue :=
  List.replicate n ⟨none, none⟩

/-- The fresh map of `HashMap_Init` under `toyEnv` for two-byte keys. -/
def state0 : HashMap :=
  { key_size := 2, value_size := 1, size := 0, n := 32,
    left := emptyTable 32, left_seed_0 := 0, left_seed_1 := 0,
    right := emptyTable 32, right_seed_0 := 1, right_seed_1 := 1 }

/-- After `Put([0,0], [100])` and `Put([0,1], [101])`: the first key sits in
`left[0]`, the second in `right[1]`. -/
def stateAB : HashMap :=
  { state0 with
    size := 2,
    left := (emptyTable 32).set 0 ⟨some [0, 0], some [100]⟩,
    right := (emptyTable 32).set 1 ⟨some [0, 1], some [101]⟩ }

/-- After the further `Put([32,1], [102])`, whose two candidate slots are
`left[0]` and `right[1]`. -/
def stateABC : HashMap :=
  { state0 with
    size := 3,
    left := (emptyTable 32).set 0 ⟨some [0, 0], some [100]⟩,
    right := ((emptyTable 32).set 0 ⟨some [0, 0], some [100]⟩).set 1
      ⟨some [0, 0], some [100]⟩ }

/-- After `Put([0,0], [100])`, `Put([0,1], [101])`, `Remove([0,0])`,
`Put([0,1], [102])`. -/
def stateDup : HashMap :=
  { state0 with
    size := 2,
    left := (emptyTable 32).set 0 ⟨some [0, 1], some [102]⟩,
    right := (emptyTable 32).set 1 ⟨some [0, 1], some [101]⟩ }

/-- The state `stateDup` after `Remove([0,1])`. -/
def stateDupRemoved : HashMap :=
  { state0 with
    size := 1,
    left := emptyTable 32,
    right := (emptyTable 32).set 1 ⟨some [0, 1], some [101]⟩ }

/-- After `Put([0,0], [100])` and `Put([0,0], [200])`. -/
def stateAA : HashMap :=
  { state0 with
    size := 2,
    left := (emptyTable 32).set 0 ⟨some [0, 0], some [200]⟩ }

/-- The fresh map of `HashMap_Init` under `toyEnv` for four-byte keys. -/
def state0x : HashMap :=
  { state0 with key_size := 4 }

def keyX : Bytes := [0, 0, 0, 0]

def keyY : Bytes := [1, 0, 0, 1]

def keyZ : Bytes := [2, 0, 0, 1]

/-- After `Put(keyX, [10])`, `Put(keyY, [20])`, `Put(keyZ, [30])`: three keys in
`left[0]`, `left[1]`, `left[2]`. -/
def stateXYZ : HashMap :=
  { state0x with
    size := 3,
    left := (((emptyTable 32).set 0 ⟨some keyX, some [10]⟩).set 1
      ⟨some keyY, some [20]⟩).set 2 ⟨some keyZ, some [30]⟩ }

/-- The three puts that lead to `stateXYZ`. -/
def opsXYZ : List Op :=
  [.put keyX [10], .put keyY [20], .put keyZ [30]]

/-- The state `stateXYZ` after fourteen more calls `Put(keyX, [10])`. -/
def stateXYZ17 : HashMap :=
  { stateXYZ with size := 17 }

/-- The tables that `HashMap_Grow` builds from `stateXYZ` under `toyEnv`
(capacity 64, seeds `2, 2, 3, 3`), with `v` the value in `left[0]`. -/
def grownXYZ (size : Nat) (v : Bytes) : HashMap :=
  { key_size := 4, value_size := 1, size := size, n := 64,
    left := (emptyTable 64).set 0 ⟨some keyX, some v⟩,
    left_seed_0 := 2, left_seed_1 := 2,
    right := ((emptyTable 64).set 0 ⟨some keyX, some [10]⟩).set 1
      ⟨some keyX, some [10]⟩,
    right_seed_0 := 3, right_seed_1 := 3 }

/-- The key/value pairs stored in the occupied slots, left table first. -/
def storedPairs (h : HashMap) : List (Bytes × Bytes) :=
  (h.left ++ h.right).filterMap (fun s =>
    match s.key, s.value with
    | some k, some v => some (k, v)
    | _, _ => none)

/-- The state `stateAB` after iteration `i = 0` of the eviction loop of
`Put([32,1], [102])`. -/
def stateAB1 : HashMap :=
  { state0 with
    size := 2,
    left := (emptyTable 32).set 0 ⟨some [32, 1], some [102]⟩,
    right := (emptyTable 32).set 1 ⟨some [0, 0], some [100]⟩ }

/-- After `Put([0,0], [100])`, `Put([0,1], [101])`, `Put([32,1], [102])`,
`Put([1,5], [103])`, `Remove([0,0])`: `left[0]` is empty, `right[1]` holds the
key `[0,0]`, whose left candidate slot is `left[0]`. -/
def stateHole : HashMap :=
  { state0 with
    size := 3,
    left := (emptyTable 32).set 1 ⟨some [1, 5], some [103]⟩,
    right := ((emptyTable 32).set 0 ⟨some [0, 0], some [100]⟩).set 1
      ⟨some [0, 0], some [100]⟩ }

/-- The state `stateHole` after iteration `i = 0` of the eviction loop of
`Put([1,1], [104])`. -/
def stateHole1 : HashMap :=
  { state0 with
    size := 3,
    left := (emptyTable 32).set 1 ⟨some [1, 1], some [104]⟩,
    right := ((emptyTable 32).set 0 ⟨some [1, 5], some [103]⟩).set 1
      ⟨some [0, 0], some [100]⟩ }

/-- Every slot of both tables has its key present exactly when its value is
present. -/
def Coupled (h : HashMap) : Prop :=
  ∀ s ∈ h.left ++ h.right, (s.key = none ↔ s.value = none)

/-- Number of occupied slots of one table. -/
def occT (t : List KeyValue) : Nat :=
  t.countP (fun s => s.key.isSome)

/-- The map `h1` has the capacity, sizes and seeds of `h`, and tables of the
same lengths. -/
structure SameShape (h h1 : HashMap) : Prop where
  n_eq : h1.n = h.n
  key_size_eq : h1.key_size = h.key_size
  value_size_eq : h1.value_size = h.value_size
  left_seed_0_eq : h1.left_seed_0 = h.left_seed_0
  left_seed_1_eq : h1.left_seed_1 = h.left_seed_1
  right_seed_0_eq : h1.right_seed_0 = h.right_seed_0
  right_seed_1_eq : h1.right_seed_1 = h.right_seed_1
  left_len : h1.left.length = h.left.length
  right_len : h1.right.length = h.right.length

/-- What one pass through the placement code of `HashMap_Put` does to the
counters: with `b` the flag "a slot was filled and `size` incremented". -/
structure StepOK (h h1 : HashMap) (b : Bool) : Prop where
  shape : SameShape h h1
  size_eq : h1.size = h.size + (if b then 1 else 0)
  occ_le : occupied h1 ≤ occupied h + (if b then 1 else 0)
  coupled : Coupled h → Coupled h1

/-- Occupancy of slot `i` of a table: 1 when the slot exists and holds a key. -/
def slotOcc (t : List KeyValue) (i : Nat) : Nat :=
  match t[i]? with
  | some s => if s.key.isSome then 1 else 0
  | none => 0

/-- Number of calls of `HashMap_Put` that the loop of `HashMap_Grow` makes for
the slot indices `is` of the old map `h`. -/
def growCalls (h : HashMap) (is : List Nat) : Nat :=
  (is.map (fun i => slotOcc h.left i + slotOcc h.right i)).sum

/-- Relation between a map and a later map after at most `c` insertions. -/
structure GrowRel (h h1 : HashMap) (c : Nat) : Prop where
  n_le : h.n ≤ h1.n
  coupled : Coupled h → Coupled h1
  counted : WF h → occupied h ≤ h.size →
    WF h1 ∧ occupied h1 ≤ h1.size ∧ h1.size ≤ h.size + c

/-- Relation between the map before and the map after a returning call of
`HashMap_Put`. -/
structure PutPost (h h1 : HashMap) : Prop where
  n_le : h.n ≤ h1.n
  n_double : h.size > h.n / 2 → 2 * h.n ≤ h1.n
  coupled : Coupled h → Coupled h1
  counted : WF h → occupied h ≤ h.size →
    WF h1 ∧ occupied h1 ≤ h1.size ∧ h1.size ≤ h.size + 1 ∧ h1.size ≤ h1.n + 1

/-! ## Basic facts -/

theorem run_append (env : Env) (fuel : Nat) (ops1 ops2 : List Op) (s : HashMap × Nat) :
    run env fuel (ops1 ++ ops2) s =
      match run env fuel ops1 s with
      | .ok s1 => run env fuel ops2 s1
      | .error e => .error e := by
  induction ops1 generalizing s with
  | nil => simp [run]
  | cons op rest ih =>
    cases op with
    | put k v =>
      simp only [List.cons_append, run]
      cases HashMap_Put env fuel s.1 k v s.2 with
      | error e => rfl
      | ok s1 => exact ih s1
    | remove k =>
      simp only [List.cons_append, run]
      cases HashMap_Remove env s.1 k with
      | error e => rfl
      | ok r => exact ih (r.2, s.2)

/-- A run of calls from a reachable state ends in a reachable state. -/
theorem reachable_run (env : Env) (fuel : Nat) (ops : List Op) :
    ∀ (h : HashMap) (g : Nat) (h1 : HashMap) (g1 : Nat), Reachable env h g →
      run env fuel ops (h, g) = .ok (h1, g1) → Reachable env h1 g1 := by
  induction ops with
  | nil =>
    intro h g h1 g1 hr hrun
    simp only [run, Except.ok.injEq, Prod.mk.injEq] at hrun
    obtain ⟨rfl, rfl⟩ := hrun
    exact hr
  | cons op rest ih =>
    intro h g h1 g1 hr hrun
    cases op with
    | put k v =>
      simp only [run] at hrun
      cases hput : HashMap_Put env fuel h k v g with
      | error e => rw [hput] at hrun; cases hrun
      | ok s1 =>
        rw [hput] at hrun
        exact ih s1.1 s1.2 h1 g1 (Reachable.put fuel k v hr hput) hrun
    | remove k =>
      simp only [run] at hrun
      cases hrem : HashMap_Remove env h k with
      | error e => rw [hrem] at hrun; cases hrun
      | ok r =>
        rw [hrem] at hrun
        exact ih r.2 g h1 g1 (Reachable.remove k hr hrem) hrun

theorem reachable_state0 : Reachable toyEnv state0 20 :=
  Reachable.init 2 1 0

theorem reachable_state0x : Reachable toyEnv state0x 20 :=
  Reachable.init 4 1 0

theorem reachable_stateAB : Reachable toyEnv stateAB 20 :=
  reachable_run toyEnv 1 [.put [0, 0] [100], .put [0, 1] [101]] state0 20 stateAB 20
    reachable_state0 (by decide)

theorem reachable_stateABC : Reachable toyEnv stateABC 20 :=
  Reachable.put 1 [32, 1] [102] reachable_stateAB (by decide)

theorem reachable_stateDup : Reachable toyEnv stateDup 20 :=
  reachable_run toyEnv 1 [.remove [0, 0], .put [0, 1] [102]] stateAB 20 stateDup 20
    reachable_stateAB (by decide)

theorem reachable_stateXYZ : Reachable toyEnv stateXYZ 20 :=
  reachable_run toyEnv 1 opsXYZ state0x 20 stateXYZ 20 reachable_state0x (by decide)

theorem reachable_stateXYZ17 : Reachable toyEnv stateXYZ17 20 :=
  reachable_run toyEnv 1 (List.replicate 14 (.put keyX [10])) stateXYZ 20 stateXYZ17 20
    reachable_stateXYZ (by decide)

theorem reachable_stateAA : Reachable toyEnv stateAA 20 :=
  reachable_run toyEnv 1 [.put [0, 0] [100], .put [0, 0] [200]] state0 20 stateAA 20
    reachable_state0 (by decide)

/-! ## Slots, `HashMap_Get` and `HashMap_Remove` -/

theorem readValue_ne_one (pair : KeyValue) (out : Bytes) : readValue pair ≠ .ok (1, out) := by
  unfold readValue
  cases pair.value <;> simp

theorem slotAt_set_ne (t : List KeyValue) (i j : Nat) (s : KeyValue) (hij : i ≠ j) :
    slotAt (t.set i s) j = slotAt t j := by
  unfold slotAt
  rw [List.getElem?_set_ne hij]

theorem slotAt_set_self (t : List KeyValue) (i : Nat) (s p : KeyValue)
    (h : slotAt t i = .ok p) : slotAt (t.set i s) i = .ok s := by
  unfold slotAt at h ⊢
  cases hi : t[i]? with
  | none => rw [hi] at h; cases h
  | some q =>
    have hlt : i < t.length := by
      by_contra hge
      rw [List.getElem?_eq_none (Nat.le_of_not_lt hge)] at hi
      cases hi
    rw [List.getElem?_set_self hlt]

theorem slotAt_of_lt (t : List KeyValue) (i : Nat) (hi : i < t.length) :
    ∃ s, slotAt t i = .ok s := by
  unfold slotAt
  rw [List.getElem?_eq_getElem hi]
  exact ⟨_, rfl⟩

theorem get_after_left_clear (env : Env) (h : HashMap) (k k2 buffer : Bytes) (size : Nat)
    (pl : KeyValue) (hne : k ≠ k2) (hl : slotAt h.left (leftIndex env h k) = .ok pl)
    (hk : pl.key = some k) :
    HashMap_Get env { h with left := h.left.set (leftIndex env h k) ⟨none, none⟩, size := size }
      k2 buffer = HashMap_Get env h k2 buffer := by
  have hne2 : ¬ (some k = some k2) := fun e => hne (Option.some.inj e)
  simp only [HashMap_Get, leftIndex, rightIndex] at hl ⊢
  by_cases hidx : hash env k h.key_size h.left_seed_0 h.left_seed_1 % h.n
      = hash env k2 h.key_size h.left_seed_0 h.left_seed_1 % h.n
  · rw [← hidx, slotAt_set_self _ _ _ _ hl, hl]
    simp [hk, hne2]
  · rw [slotAt_set_ne _ _ _ _ hidx]

theorem get_after_right_clear (env : Env) (h : HashMap) (k k2 buffer : Bytes) (size : Nat)
    (pr : KeyValue) (hne : k ≠ k2) (hr : slotAt h.right (rightIndex env h k) = .ok pr)
    (hk : pr.key = some k) :
    HashMap_Get env { h with right := h.right.set (rightIndex env h k) ⟨none, none⟩, size := size }
      k2 buffer = HashMap_Get env h k2 buffer := by
  have hne2 : ¬ (some k = some k2) := fun e => hne (Option.some.inj e)
  simp only [HashMap_Get, leftIndex, rightIndex] at hr ⊢
  by_cases hidx : hash env k h.key_size h.right_seed_0 h.right_seed_1 % h.n
      = hash env k2 h.key_size h.right_seed_0 h.right_seed_1 % h.n
  · rw [← hidx, slotAt_set_self _ _ _ _ hr, hr]
    simp [hk, hne2]
  · rw [slotAt_set_ne _ _ _ _ hidx]

theorem leftIndex_lt (env : Env) (h : HashMap) (k : Bytes) (hwf : WF h) :
    leftIndex env h k < h.left.length := by
  unfold leftIndex
  rw [hwf.1]
  exact Nat.mod_lt _ hwf.2.2

theorem rightIndex_lt (env : Env) (h : HashMap) (k : Bytes) (hwf : WF h) :
    rightIndex env h k < h.right.length := by
  unfold rightIndex
  rw [hwf.2.1]
  exact Nat.mod_lt _ hwf.2.2

theorem remove_returns (env : Env) (h : HashMap) (k : Bytes) (hwf : WF h) :
    ∃ rc h1, HashMap_Remove env h k = .ok (rc, h1) := by
  obtain ⟨pl, hl⟩ := slotAt_of_lt h.left _ (leftIndex_lt env h k hwf)
  obtain ⟨pr, hr⟩ := slotAt_of_lt h.right _ (rightIndex_lt env h k hwf)
  unfold HashMap_Remove
  rw [hl]
  by_cases hkl : pl.key = some k
  · simp only [hkl, if_true]
    exact ⟨_, _, rfl⟩
  · simp only [hkl, if_false]
    rw [hr]
    by_cases hkr : pr.key = some k
    · simp only [hkr, if_true]
      exact ⟨_, _, rfl⟩
    · simp only [hkr, if_false]
      exact ⟨_, _, rfl⟩

/-! ## The eviction chain and direct placement of `HashMap_Put` -/

theorem slotAt_set (t : List KeyValue) (i j : Nat) (s : KeyValue) :
    slotAt (t.set i s) j = if i = j ∧ i < t.length then .ok s else slotAt t j := by
  unfold slotAt
  by_cases hij : i = j
  · subst hij
    by_cases hlt : i < t.length
    · simp [hlt]
    · have hge : (t.set i s).length ≤ i := by
        rw [List.length_set]; exact Nat.le_of_not_lt hlt
      simp [hlt, List.getElem?_eq_none hge, List.getElem?_eq_none (Nat.le_of_not_lt hlt)]
  · simp [hij, List.getElem?_set_ne hij]

theorem slotAt_ok_lt (t : List KeyValue) (i : Nat) (s : KeyValue) (h : slotAt t i = .ok s) :
    i < t.length := by
  unfold slotAt at h
  by_contra hge
  rw [List.getElem?_eq_none (Nat.le_of_not_lt hge)] at h
  cases h

/-- The eviction chain never stores the new key, whatever the digest and the
seeds.  On a map below the load threshold, let both candidate slots of `key`
hold other keys `a` (left) and `b` (right), each placed at its own digest, and
let the right slot of `a` be a different, empty slot.  Then `HashMap_Put`
returns from the eviction loop at `i = 2`, `HashMap_Get` of `key` reports
not-found, and the right candidate slot holds a copy of `a` in place of `b`. -/
theorem eviction_drops_new_key (env : Env) (h : HashMap) (key value buffer a va b vb : Bytes)
    (g : Nat) (hwf : WF h)
    (hsize : h.size ≤ h.n / 2)
    (hL : slotAt h.left (leftIndex env h key) = .ok ⟨some a, some va⟩)
    (hR : slotAt h.right (rightIndex env h key) = .ok ⟨some b, some vb⟩)
    (ha : a ≠ key) (hb : b ≠ key)
    (hpa : leftIndex env h a = leftIndex env h key)
    (hpb : rightIndex env h b = rightIndex env h key)
    (hne : rightIndex env h a ≠ rightIndex env h key)
    (hE : slotAt h.right (rightIndex env h a) = .ok ⟨none, none⟩) :
    ∃ h1, HashMap_Put env 1 h key value g = .ok (h1, g) ∧
      HashMap_Get env h1 key buffer = .ok (1, buffer) ∧
      slotAt h1.right (rightIndex env h key) = .ok ⟨some a, some va⟩ := by
  have hil := slotAt_ok_lt _ _ _ hL
  have hir := slotAt_ok_lt _ _ _ hR
  have hie := slotAt_ok_lt _ _ _ hE
  have hn : ∃ m, 2 * h.n = m + 3 := by
    have h2 : 2 ≤ h.n := by
      have := hwf.2.1
      rw [this] at hir hie
      omega
    exact ⟨2 * h.n - 3, by omega⟩
  obtain ⟨m, hm⟩ := hn
  have hsz : ¬ (h.size > h.n / 2) := by omega
  have hak : ¬ (some a = some key) := fun e => ha (Option.some.inj e)
  have hbk : ¬ (some b = some key) := fun e => hb (Option.some.inj e)
  have hne2 : ¬ (rightIndex env h key = rightIndex env h a) := fun e => hne e.symm
  simp only [leftIndex, rightIndex] at hL hR hpa hpb hne hne2 hE hil hir hie
  simp [HashMap_Put, hsz, putNoGrow, hL, hR, hak, hbk, hm, evictLoop, evictEven, evictOdd,
    readKey, allocIfEmpty, copyPair, memcpy, derefDisplaced, slotAt_set, leftIndex, rightIndex,
    hpa, hpb, hne, hne2, hE, hil, hir, hie, HashMap_Get, readValue]

/-- Direct placement stores a second copy of a key that sits in its right
candidate slot while its left candidate slot is empty. -/
theorem put_left_empty_stores_second_copy (env : Env) (h : HashMap) (key value v0 : Bytes)
    (g : Nat) (hsize : h.size ≤ h.n / 2)
    (hL : slotAt h.left (leftIndex env h key) = .ok ⟨none, none⟩)
    (hR : slotAt h.right (rightIndex env h key) = .ok ⟨some key, some v0⟩) :
    ∃ h1, HashMap_Put env 1 h key value g = .ok (h1, g) ∧
      slotAt h1.left (leftIndex env h key) = .ok ⟨some key, some value⟩ ∧
      slotAt h1.right (rightIndex env h key) = .ok ⟨some key, some v0⟩ := by
  have hil := slotAt_ok_lt _ _ _ hL
  have hsz : ¬ (h.size > h.n / 2) := by omega
  simp only [leftIndex, rightIndex] at hL hR hil
  simp [HashMap_Put, hsz, putNoGrow, hL, hR, slotAt_set, leftIndex, rightIndex, hil]

/-- The hypotheses of `eviction_drops_new_key` hold in the reachable state
`stateAB` for the key `[32,1]`. -/
theorem eviction_drops_new_key_stateAB :
    ∃ h1, HashMap_Put toyEnv 1 stateAB [32, 1] [102] 20 = .ok (h1, 20) ∧
      HashMap_Get toyEnv h1 [32, 1] [] = .ok (1, []) ∧
      slotAt h1.right (rightIndex toyEnv stateAB [32, 1]) = .ok ⟨some [0, 0], some [100]⟩ :=
  eviction_drops_new_key toyEnv stateAB [32, 1] [102] [] [0, 0] [100] [0, 1] [101] 20
    (by decide) (by decide) (by decide) (by decide) (by decide) (by decide) (by decide)
    (by decide) (by decide) (by decide)

/-! ## Round trip and insertion of distinct keys -/

/-- C1: the round trip of `HashMap_Put` then `HashMap_Get` fails on the eviction
chain.  In the reachable state `stateAB` both candidate slots of the key
`[32,1]` are occupied by other keys; `HashMap_Put` of `[32,1]` returns through
the eviction loop (no Grow), and `HashMap_Get` of the same key then reports
not-found (returns 1, buffer untouched). -/
theorem put_get_roundtrip_lost_in_eviction :
    Reachable toyEnv stateAB 20 ∧
    HashMap_Put toyEnv 1 stateAB [32, 1] [102] 20 = .ok (stateABC, 20) ∧
    HashMap_Get toyEnv stateABC [32, 1] [] = .ok (1, []) :=
  ⟨reachable_stateAB, by decide, by decide⟩

/-- C2: three pairwise distinct keys put in order into a fresh map are not all
retrievable: after `Put([0,0])`, `Put([0,1])`, `Put([32,1])` only the first key
is found, the second and the third are reported not-found. -/
theorem distinct_puts_lose_keys :
    [[0, 0], [0, 1], [32, 1]].Nodup ∧
    run toyEnv 1 [.put [0, 0] [100], .put [0, 1] [101], .put [32, 1] [102]]
      (HashMap_Init toyEnv 2 1 0) = .ok (stateABC, 20) ∧
    HashMap_Get toyEnv stateABC [0, 0] [] = .ok (0, [100]) ∧
    HashMap_Get toyEnv stateABC [0, 1] [] = .ok (1, []) ∧
    HashMap_Get toyEnv stateABC [32, 1] [] = .ok (1, []) :=
  ⟨by decide, by decide, by decide, by decide, by decide⟩

/-! ## Removal -/

/-- C3: removing a present key does not always make it absent.  In the reachable
state `stateDup` the key `[0,1]` is found; `HashMap_Remove` returns 0 and
decreases `size` by one, but the following `HashMap_Get` still reports found
(with the older value `[101]`), because the key was stored in both tables. -/
theorem remove_present_key_still_found :
    Reachable toyEnv stateDup 20 ∧
    HashMap_Get toyEnv stateDup [0, 1] [] = .ok (0, [102]) ∧
    HashMap_Remove toyEnv stateDup [0, 1] = .ok (0, stateDupRemoved) ∧
    stateDupRemoved.size + 1 = stateDup.size ∧
    HashMap_Get toyEnv stateDupRemoved [0, 1] [] = .ok (0, [101]) :=
  ⟨reachable_stateDup, by decide, by decide, by decide, by decide⟩

/-- C4: removal of an absent key is a no-op.  In every map state, when
`HashMap_Get` of a key reports not-found (returns 1), `HashMap_Remove` of that
key returns 1 and the map afterwards is the map before: both slot arrays,
`size`, `n` and the four seeds are unchanged. -/
theorem remove_absent_is_noop (env : Env) (h : HashMap) (key buffer out : Bytes)
    (hget : HashMap_Get env h key buffer = .ok (1, out)) :
    HashMap_Remove env h key = .ok (1, h) := by
  unfold HashMap_Get at hget
  unfold HashMap_Remove
  cases hl : slotAt h.left (leftIndex env h key) with
  | error e => rw [hl] at hget; cases hget
  | ok pl =>
    rw [hl] at hget
    by_cases hkl : pl.key = some key
    · simp only [hkl, if_true] at hget
      exact absurd hget (readValue_ne_one pl out)
    · simp only [hkl, if_false] at hget ⊢
      cases hr : slotAt h.right (rightIndex env h key) with
      | error e => rw [hr] at hget; cases hget
      | ok pr =>
        rw [hr] at hget
        by_cases hkr : pr.key = some key
        · simp only [hkr, if_true] at hget
          exact absurd hget (readValue_ne_one pr out)
        · simp only [hkr, if_false]

/-- Instance of `remove_absent_is_noop`: the key `[5,5]` is absent from `stateAB`. -/
theorem remove_absent_is_noop_witness :
    HashMap_Get toyEnv stateAB [5, 5] [] = .ok (1, []) ∧
    HashMap_Remove toyEnv stateAB [5, 5] = .ok (1, stateAB) :=
  ⟨by decide, remove_absent_is_noop toyEnv stateAB [5, 5] [] [] (by decide)⟩

/-- C5: `HashMap_Remove` does not disturb other keys.  For every map state and
keys `k`, `k2` that differ as byte strings, when `HashMap_Remove` of `k`
returns, `HashMap_Get` of `k2` gives the same result (found or not-found, and
the value) as before, and `n` and the four seeds are unchanged; on a map with
`n > 0` slots per table `HashMap_Remove` does return. -/
theorem remove_keeps_other_keys (env : Env) (h : HashMap) (k k2 buffer : Bytes)
    (hne : k ≠ k2) :
    (∀ rc h1, HashMap_Remove env h k = .ok (rc, h1) →
      HashMap_Get env h1 k2 buffer = HashMap_Get env h k2 buffer ∧
      h1.n = h.n ∧ h1.left_seed_0 = h.left_seed_0 ∧ h1.left_seed_1 = h.left_seed_1 ∧
      h1.right_seed_0 = h.right_seed_0 ∧ h1.right_seed_1 = h.right_seed_1) ∧
    (WF h → ∃ rc h1, HashMap_Remove env h k = .ok (rc, h1)) := by
  refine ⟨?_, remove_returns env h k⟩
  intro rc h1 hrem
  unfold HashMap_Remove at hrem
  cases hl : slotAt h.left (leftIndex env h k) with
  | error e => rw [hl] at hrem; cases hrem
  | ok pl =>
    rw [hl] at hrem
    by_cases hkl : pl.key = some k
    · simp only [hkl, if_true, Except.ok.injEq, Prod.mk.injEq] at hrem
      obtain ⟨-, rfl⟩ := hrem
      exact ⟨get_after_left_clear env h k k2 buffer _ pl hne hl hkl, rfl, rfl, rfl, rfl, rfl⟩
    · simp only [hkl, if_false] at hrem
      cases hr : slotAt h.right (rightIndex env h k) with
      | error e => rw [hr] at hrem; cases hrem
      | ok pr =>
        rw [hr] at hrem
        by_cases hkr : pr.key = some k
        · simp only [hkr, if_true, Except.ok.injEq, Prod.mk.injEq] at hrem
          obtain ⟨-, rfl⟩ := hrem
          exact ⟨get_after_right_clear env h k k2 buffer _ pr hne hr hkr, rfl, rfl, rfl, rfl, rfl⟩
        · simp only [hkr, if_false, Except.ok.injEq, Prod.mk.injEq] at hrem
          obtain ⟨-, rfl⟩ := hrem
          exact ⟨rfl, rfl, rfl, rfl, rfl, rfl⟩

/-- Instance of `remove_keeps_other_keys`: removing `[0,0]` from `stateAB` and
looking up `[0,1]`. -/
theorem remove_keeps_other_keys_witness :
    ([0, 0] : Bytes) ≠ [0, 1] ∧
    ((∀ rc h1, HashMap_Remove toyEnv stateAB [0, 0] = .ok (rc, h1) →
      HashMap_Get toyEnv h1 [0, 1] [] = HashMap_Get toyEnv stateAB [0, 1] [] ∧
      h1.n = stateAB.n ∧ h1.left_seed_0 = stateAB.left_seed_0 ∧
      h1.left_seed_1 = stateAB.left_seed_1 ∧
      h1.right_seed_0 = stateAB.right_seed_0 ∧ h1.right_seed_1 = stateAB.right_seed_1) ∧
    (WF stateAB → ∃ rc h1, HashMap_Remove toyEnv stateAB [0, 0] = .ok (rc, h1))) :=
  ⟨by decide, remove_keeps_other_keys toyEnv stateAB [0, 0] [0, 1] [] (by decide)⟩

/-! ## Invariants of the reachable states -/

/-- C6: uniqueness of keys is not an invariant of the reachable states.  In the
reachable state `stateDup` the key `[0,1]` occupies `left[0]` and `right[1]`
(direct placement tests the empty left slot before the matching right slot);
in the reachable state `stateABC` the key `[0,0]` occupies three slots (after
an eviction chain). -/
theorem duplicate_key_reachable :
    Reachable toyEnv stateDup 20 ∧ ¬ UniqueKeys stateDup ∧
    slotAt stateDup.left 0 = .ok ⟨some [0, 1], some [102]⟩ ∧
    slotAt stateDup.right 1 = .ok ⟨some [0, 1], some [101]⟩ ∧
    Reachable toyEnv stateABC 20 ∧ ¬ UniqueKeys stateABC :=
  ⟨reachable_stateDup, by decide, by decide, by decide, reachable_stateABC, by decide⟩

/-- C7: `size` is not the number of occupied slots in every reachable state.
After `Put([0,0], [100])` and `Put([0,0], [200])` on a fresh map one slot is
occupied and `size` is 2. -/
theorem size_overcounts_after_update :
    Reachable toyEnv stateAA 20 ∧ stateAA.size = 2 ∧ occupied stateAA = 1 :=
  ⟨reachable_stateAA, by decide, by decide⟩

/-- C8: the placement invariant fails in a reachable state.  In `stateABC` the
slot `right[1]` holds the key `[0,0]`, whose right digest modulo `n` is 0. -/
theorem placement_broken_after_eviction :
    Reachable toyEnv stateABC 20 ∧
    slotAt stateABC.right 1 = .ok ⟨some [0, 0], some [100]⟩ ∧
    rightIndex toyEnv stateABC [0, 0] = 0 ∧
    ¬ PlacementInv toyEnv stateABC := by
  refine ⟨reachable_stateABC, by decide, by decide, ?_⟩
  intro hp
  have h1 := hp.2 1 ⟨some [0, 0], some [100]⟩ [0, 0] (by decide) rfl
  revert h1
  decide

/-! ## Update and Grow -/

/-- C9: an update that runs Grow changes the set of stored keys.  In the
reachable state `stateXYZ17` (keys `keyX`, `keyY`, `keyZ`, `size = 17 > n/2`)
the key `keyX` is found; `HashMap_Put(keyX, [11])` returns and `HashMap_Get`
of `keyX` yields `[11]`, but `keyY`, stored before the call, is stored nowhere
afterwards. -/
theorem update_with_grow_drops_keys :
    Reachable toyEnv stateXYZ17 20 ∧
    HashMap_Get toyEnv stateXYZ17 keyX [] = .ok (0, [10]) ∧
    HashMap_Put toyEnv 2 stateXYZ17 keyX [11] 20 = .ok (grownXYZ 4 [11], 40) ∧
    HashMap_Get toyEnv (grownXYZ 4 [11]) keyX [] = .ok (0, [11]) ∧
    keyY ∈ storedKeys stateXYZ17 ∧ keyY ∉ storedKeys (grownXYZ 4 [11]) :=
  ⟨reachable_stateXYZ17, by decide, by decide, by decide, by decide, by decide⟩

/-- C10: `HashMap_Grow` does not preserve the mapping.  On the reachable state
`stateXYZ` it returns a map in which `HashMap_Get` of `keyY` reports
not-found, while before Grow it reported found with value `[20]`. -/
theorem grow_loses_keys :
    Reachable toyEnv stateXYZ 20 ∧
    HashMap_Grow toyEnv 1 stateXYZ 20 = .ok (grownXYZ 3 [10], 40) ∧
    HashMap_Get toyEnv stateXYZ keyY [] = .ok (0, [20]) ∧
    HashMap_Get toyEnv (grownXYZ 3 [10]) keyY [] = .ok (1, []) :=
  ⟨reachable_stateXYZ, by decide, by decide, by decide⟩

/-! ## Direct placement and update -/

theorem map_key_set (t : List KeyValue) (i : Nat) (s p : KeyValue)
    (hp : slotAt t i = .ok p) (hk : s.key = p.key) :
    (t.set i s).map KeyValue.key = t.map KeyValue.key := by
  induction t generalizing i with
  | nil => simp
  | cons x xs ih =>
    cases i with
    | zero =>
      simp [slotAt] at hp
      simp [hp, hk]
    | succ j =>
      simp [slotAt] at hp
      have := ih j (by simp [slotAt, hp])
      simp [this]

/-- C15: `HashMap_Put` increments `size` on update.  On a map with
`size <= n/2` (no Grow runs): when the left candidate slot of `k` holds `k`,
the call returns the map with that slot's value replaced by `v` and `size`
one larger, everything else as before; when the left candidate slot holds a
different key and the right candidate slot holds `k`, the same with the right
slot.  In both cases every slot keeps its key. -/
theorem put_update_increments_size (env : Env) (h : HashMap) (k v : Bytes) (g fuel : Nat)
    (hsize : h.size ≤ h.n / 2) :
    (∀ p, slotAt h.left (leftIndex env h k) = .ok p → p.key = some k →
      HashMap_Put env (fuel + 1) h k v g =
        .ok ({ h with left := h.left.set (leftIndex env h k) ⟨some k, some v⟩,
                      size := h.size + 1 }, g) ∧
      (h.left.set (leftIndex env h k) ⟨some k, some v⟩).map KeyValue.key
        = h.left.map KeyValue.key) ∧
    (∀ q c p, slotAt h.left (leftIndex env h k) = .ok q → q.key = some c → c ≠ k →
      slotAt h.right (rightIndex env h k) = .ok p → p.key = some k →
      HashMap_Put env (fuel + 1) h k v g =
        .ok ({ h with right := h.right.set (rightIndex env h k) ⟨some k, some v⟩,
                      size := h.size + 1 }, g) ∧
      (h.right.set (rightIndex env h k) ⟨some k, some v⟩).map KeyValue.key
        = h.right.map KeyValue.key) := by
  have hsz : ¬ (h.size > h.n / 2) := by omega
  refine ⟨?_, ?_⟩
  · intro p hp hk
    refine ⟨?_, map_key_set _ _ _ _ hp (by simp [hk])⟩
    simp [HashMap_Put, hsz, putNoGrow, hp, hk]
  · intro q c p hq hqc hck hp hk
    have hne : ¬ (some c = some k) := fun e => hck (Option.some.inj e)
    refine ⟨?_, map_key_set _ _ _ _ hp (by simp [hk])⟩
    simp [HashMap_Put, hsz, putNoGrow, hq, hqc, hne, hp, hk]

/-- Instance of `put_update_increments_size` on `stateAB`: the key `[0,0]` sits in
its left slot, the key `[0,1]` in its right slot behind an occupied left slot. -/
theorem put_update_increments_size_witness :
    stateAB.size ≤ stateAB.n / 2 ∧
    HashMap_Put toyEnv 1 stateAB [0, 0] [7] 20 =
      .ok ({ stateAB with
             left := stateAB.left.set (leftIndex toyEnv stateAB [0, 0]) ⟨some [0, 0], some [7]⟩,
             size := stateAB.size + 1 }, 20) ∧
    HashMap_Put toyEnv 1 stateAB [0, 1] [7] 20 =
      .ok ({ stateAB with
             right := stateAB.right.set (rightIndex toyEnv stateAB [0, 1])
               ⟨some [0, 1], some [7]⟩,
             size := stateAB.size + 1 }, 20) :=
  ⟨by decide,
    ((put_update_increments_size toyEnv stateAB [0, 0] [7] 20 0 (by decide)).1
      ⟨some [0, 0], some [100]⟩ (by decide) rfl).1,
    ((put_update_increments_size toyEnv stateAB [0, 1] [7] 20 0 (by decide)).2
      ⟨some [0, 0], some [100]⟩ [0, 0] ⟨some [0, 1], some [101]⟩ (by decide) rfl (by decide)
      (by decide) rfl).1⟩

/-- C16: direct placement into an empty left slot changes one slot only.  On a
map with `size <= n/2` whose left candidate slot of `k` is empty, `HashMap_Put`
returns a map whose left slot at that index holds `k` and `v`, whose `size` is
one larger, and in which every other left slot, the right table, `n`,
`key_size`, `value_size` and the four seeds are unchanged. -/
theorem put_left_empty_changes_one_slot (env : Env) (h : HashMap) (k v : Bytes)
    (g fuel : Nat) (p : KeyValue) (hsize : h.size ≤ h.n / 2)
    (hp : slotAt h.left (leftIndex env h k) = .ok p) (hk : p.key = none) :
    ∃ h1, HashMap_Put env (fuel + 1) h k v g = .ok (h1, g) ∧
      slotAt h1.left (leftIndex env h k) = .ok ⟨some k, some v⟩ ∧
      h1.size = h.size + 1 ∧
      (∀ j, j ≠ leftIndex env h k → slotAt h1.left j = slotAt h.left j) ∧
      h1.left.length = h.left.length ∧
      h1.right = h.right ∧ h1.n = h.n ∧ h1.key_size = h.key_size ∧
      h1.value_size = h.value_size ∧
      h1.left_seed_0 = h.left_seed_0 ∧ h1.left_seed_1 = h.left_seed_1 ∧
      h1.right_seed_0 = h.right_seed_0 ∧ h1.right_seed_1 = h.right_seed_1 := by
  have hsz : ¬ (h.size > h.n / 2) := by omega
  have hil := slotAt_ok_lt _ _ _ hp
  refine ⟨{ h with left := h.left.set (leftIndex env h k) ⟨some k, some v⟩,
                   size := h.size + 1 }, ?_, ?_, rfl, ?_, ?_, rfl, rfl, rfl, rfl, rfl, rfl,
    rfl, rfl⟩
  · simp [HashMap_Put, hsz, putNoGrow, hp, hk]
  · simp [slotAt_set, hil]
  · intro j hj
    simp [slotAt_set, hj.symm]
  · simp

/-- Instance of `put_left_empty_changes_one_slot`: the key `[0,0]` on the fresh
map `state0`. -/
theorem put_left_empty_changes_one_slot_witness :
    state0.size ≤ state0.n / 2 ∧
    slotAt state0.left (leftIndex toyEnv state0 [0, 0]) = .ok ⟨none, none⟩ ∧
    ∃ h1, HashMap_Put toyEnv 1 state0 [0, 0] [100] 20 = .ok (h1, 20) ∧
      slotAt h1.left (leftIndex toyEnv state0 [0, 0]) = .ok ⟨some [0, 0], some [100]⟩ ∧
      h1.size = state0.size + 1 ∧
      (∀ j, j ≠ leftIndex toyEnv state0 [0, 0] → slotAt h1.left j = slotAt state0.left j) ∧
      h1.left.length = state0.left.length ∧
      h1.right = state0.right ∧ h1.n = state0.n ∧ h1.key_size = state0.key_size ∧
      h1.value_size = state0.value_size ∧
      h1.left_seed_0 = state0.left_seed_0 ∧ h1.left_seed_1 = state0.left_seed_1 ∧
      h1.right_seed_0 = state0.right_seed_0 ∧ h1.right_seed_1 = state0.right_seed_1 :=
  ⟨by decide, by decide,
    put_left_empty_changes_one_slot toyEnv state0 [0, 0] [100] 20 0 ⟨none, none⟩ (by decide)
      (by decide) rfl⟩

theorem get_after_left_write (env : Env) (h : HashMap) (k k2 v buffer : Bytes) (size : Nat)
    (p : KeyValue) (hne : k2 ≠ k) (hp : slotAt h.left (leftIndex env h k) = .ok p)
    (hk : p.key = none ∨ p.key = some k) :
    HashMap_Get env { h with left := h.left.set (leftIndex env h k) ⟨some k, some v⟩,
                             size := size } k2 buffer = HashMap_Get env h k2 buffer := by
  have hne2 : ¬ (some k = some k2) := fun e => hne (Option.some.inj e).symm
  have hpk : ¬ (p.key = some k2) := by
    rcases hk with hk | hk <;> simp [hk, hne2]
  simp only [HashMap_Get, leftIndex, rightIndex] at hp ⊢
  by_cases hidx : hash env k h.key_size h.left_seed_0 h.left_seed_1 % h.n
      = hash env k2 h.key_size h.left_seed_0 h.left_seed_1 % h.n
  · rw [← hidx, slotAt_set_self _ _ _ _ hp, hp]
    simp [hpk, hne2]
  · rw [slotAt_set_ne _ _ _ _ hidx]

theorem get_after_right_write (env : Env) (h : HashMap) (k k2 v buffer : Bytes) (size : Nat)
    (p : KeyValue) (hne : k2 ≠ k) (hp : slotAt h.right (rightIndex env h k) = .ok p)
    (hk : p.key = none ∨ p.key = some k) :
    HashMap_Get env { h with right := h.right.set (rightIndex env h k) ⟨some k, some v⟩,
                             size := size } k2 buffer = HashMap_Get env h k2 buffer := by
  have hne2 : ¬ (some k = some k2) := fun e => hne (Option.some.inj e).symm
  have hpk : ¬ (p.key = some k2) := by
    rcases hk with hk | hk <;> simp [hk, hne2]
  simp only [HashMap_Get, leftIndex, rightIndex] at hp ⊢
  by_cases hidx : hash env k h.key_size h.right_seed_0 h.right_seed_1 % h.n
      = hash env k2 h.key_size h.right_seed_0 h.right_seed_1 % h.n
  · rw [← hidx, slotAt_set_self _ _ _ _ hp, hp]
    simp [hpk, hne2]
  · rw [slotAt_set_ne _ _ _ _ hidx]

/-- C20: `HashMap_Put` is correct whenever it ends by direct placement.  On a map
with `size <= n/2` whose left candidate slot of `k` is empty or holds `k`, or
whose right candidate slot of `k` is empty or holds `k`, `HashMap_Put(k, v)`
returns, `HashMap_Get(k)` then reports found with value `v`, and for every
other key `HashMap_Get` gives the same result as before the call. -/
theorem put_direct_placement_correct (env : Env) (h : HashMap) (k v buffer : Bytes)
    (g fuel : Nat) (p : KeyValue) (hsize : h.size ≤ h.n / 2)
    (hp : slotAt h.left (leftIndex env h k) = .ok p)
    (hcase : (p.key = none ∨ p.key = some k) ∨
      (∃ q, slotAt h.right (rightIndex env h k) = .ok q ∧ (q.key = none ∨ q.key = some k))) :
    ∃ h1, HashMap_Put env (fuel + 1) h k v g = .ok (h1, g) ∧
      HashMap_Get env h1 k buffer = .ok (0, v) ∧
      ∀ k2, k2 ≠ k → HashMap_Get env h1 k2 buffer = HashMap_Get env h k2 buffer := by
  have hsz : ¬ (h.size > h.n / 2) := by omega
  have hil := slotAt_ok_lt _ _ _ hp
  by_cases hleft : p.key = none ∨ p.key = some k
  · refine ⟨{ h with left := h.left.set (leftIndex env h k) ⟨some k, some v⟩,
                     size := h.size + 1 }, ?_, ?_, ?_⟩
    · rcases hleft with hk | hk <;> simp [HashMap_Put, hsz, putNoGrow, hp, hk]
    · simp only [leftIndex, rightIndex] at hil
      simp [HashMap_Get, leftIndex, rightIndex, slotAt_set, hil, readValue]
    · intro k2 hne
      exact get_after_left_write env h k k2 v buffer _ p hne hp hleft
  · obtain ⟨q, hq, hright⟩ : ∃ q, slotAt h.right (rightIndex env h k) = .ok q ∧
        (q.key = none ∨ q.key = some k) := by
      rcases hcase with hc | hc
      · exact absurd hc hleft
      · exact hc
    have hir := slotAt_ok_lt _ _ _ hq
    have hp1 : ¬ (p.key = none) := fun e => hleft (Or.inl e)
    have hp2 : ¬ (p.key = some k) := fun e => hleft (Or.inr e)
    refine ⟨{ h with right := h.right.set (rightIndex env h k) ⟨some k, some v⟩,
                     size := h.size + 1 }, ?_, ?_, ?_⟩
    · rcases hright with hk | hk <;> simp [HashMap_Put, hsz, putNoGrow, hp, hq, hk, hp1, hp2]
    · simp only [leftIndex, rightIndex] at hir hp
      simp [HashMap_Get, leftIndex, rightIndex, slotAt_set, hir, readValue, hp, hp2]
    · intro k2 hne
      exact get_after_right_write env h k k2 v buffer _ q hne hq hright

/-- Instance of `put_direct_placement_correct` on `stateAB`: the key `[64,2]` has
the occupied left candidate slot `left[0]` and the empty right candidate slot
`right[2]`. -/
theorem put_direct_placement_correct_witness :
    stateAB.size ≤ stateAB.n / 2 ∧
    slotAt stateAB.left (leftIndex toyEnv stateAB [64, 2]) = .ok ⟨some [0, 0], some [100]⟩ ∧
    ∃ h1, HashMap_Put toyEnv 1 stateAB [64, 2] [9] 20 = .ok (h1, 20) ∧
      HashMap_Get toyEnv h1 [64, 2] [] = .ok (0, [9]) ∧
      ∀ k2, k2 ≠ [64, 2] → HashMap_Get toyEnv h1 k2 [] = HashMap_Get toyEnv stateAB k2 [] :=
  ⟨by decide, by decide,
    put_direct_placement_correct toyEnv stateAB [64, 2] [9] [] 20 0 ⟨some [0, 0], some [100]⟩
      (by decide) (by decide) (Or.inr ⟨⟨none, none⟩, by decide, Or.inl rfl⟩)⟩

/-! ## Runs of the eviction loop -/

theorem reachable_stateHole : Reachable toyEnv stateHole 20 :=
  reachable_run toyEnv 1 [.put [1, 5] [103], .remove [0, 0]] stateABC 20 stateHole 20
    reachable_stateABC (by decide)

theorem slotAt_emptyTable (n i : Nat) (s : KeyValue) (h : slotAt (emptyTable n) i = .ok s) :
    s = ⟨none, none⟩ := by
  unfold slotAt emptyTable at h
  by_cases hi : i < n
  · simp [List.getElem?_replicate, hi] at h
    exact h.symm
  · simp [List.getElem?_replicate, hi] at h

theorem placementInv_stateAB : PlacementInv toyEnv stateAB := by
  constructor
  · intro i s x hs hk
    simp only [stateAB, slotAt_set] at hs
    split at hs
    · rename_i hc
      simp only [Except.ok.injEq] at hs
      subst hs
      simp only [Option.some.injEq] at hk
      subst hk
      rw [← hc.1]
      decide
    · have := slotAt_emptyTable _ _ _ hs
      subst this
      cases hk
  · intro j s y hs hk
    simp only [stateAB, slotAt_set] at hs
    split at hs
    · rename_i hc
      simp only [Except.ok.injEq] at hs
      subst hs
      simp only [Option.some.injEq] at hk
      subst hk
      rw [← hc.1]
      decide
    · have := slotAt_emptyTable _ _ _ hs
      subst this
      cases hk

/-- C17: the eviction walk does not conserve the entries.  The state `stateAB`
satisfies the placement invariant and `Put([32,1], [102])` enters the eviction
loop.  After iteration `i = 0` the tables hold `[32,1]` and a copy of `[0,0]`,
the homeless pair (`*displaced_pair`) is `[32,1]` again, and the entry
`([0,1], [101])` is gone: tables plus homeless pair are no permutation of the
old entries plus the new pair.  When the loop ends at an empty slot (`i = 2`)
the tables hold three copies of `([0,0], [100])`. -/
theorem eviction_walk_loses_entry :
    PlacementInv toyEnv stateAB ∧
    putNoGrow toyEnv stateAB [32, 1] [102]
      = evictLoop toyEnv [32, 1] [102] (2 * stateAB.n) 0 stateAB .new_pair ∧
    evictEven toyEnv stateAB [32, 1] [102] .new_pair = .ok (stateAB1, false) ∧
    derefDisplaced stateAB1 [32, 1] [102] (.left (leftIndex toyEnv stateAB [32, 1]))
      = .ok ⟨some [32, 1], some [102]⟩ ∧
    ¬ List.Perm (([32, 1], [102]) :: storedPairs stateAB1)
        (([32, 1], [102]) :: storedPairs stateAB) ∧
    evictLoop toyEnv [32, 1] [102] (2 * stateAB.n) 0 stateAB .new_pair = .ok (stateABC, true) ∧
    ¬ List.Perm (storedPairs stateABC) (([32, 1], [102]) :: storedPairs stateAB) :=
  ⟨placementInv_stateAB, by decide, by decide, by decide, by decide, by decide, by decide⟩

/-- C19: the eviction loop copies into an empty slot.  In the reachable state
`stateHole`, `Put([1,1], [104])` enters the eviction loop; after iteration
`i = 0` the slot `pair` (`right[1]`) holds the key `[0,0]`, whose left slot
`left[0]` is empty, and the odd step `i = 1` copies into that slot's `NULL`
buffers: the step, and with it `HashMap_Put`, ends in `Abort.nullDeref`. -/
theorem eviction_copies_into_empty_slot :
    Reachable toyEnv stateHole 20 ∧
    putNoGrow toyEnv stateHole [1, 1] [104]
      = evictLoop toyEnv [1, 1] [104] (2 * stateHole.n) 0 stateHole .new_pair ∧
    evictEven toyEnv stateHole [1, 1] [104] .new_pair = .ok (stateHole1, false) ∧
    slotAt stateHole1.right (rightIndex toyEnv stateHole1 [1, 1])
      = .ok ⟨some [0, 0], some [100]⟩ ∧
    slotAt stateHole1.left (leftIndex toyEnv stateHole1 [0, 0]) = .ok ⟨none, none⟩ ∧
    evictOdd toyEnv stateHole1 [1, 1] [104] (.left (leftIndex toyEnv stateHole [1, 1]))
      = .error .nullDeref ∧
    HashMap_Put toyEnv 1 stateHole [1, 1] [104] 20 = .error .nullDeref :=
  ⟨reachable_stateHole, by decide, by decide, by decide, by decide, by decide, by decide⟩

/-- C14: `HashMap_Put` does not always return a map.  On the reachable state
`stateHole` the call `Put([1,1], [104])` returns no map, whatever the fuel:
it ends in the copy through a `NULL` buffer of the eviction loop. -/
theorem put_does_not_return :
    Reachable toyEnv stateHole 20 ∧
    ∀ fuel r, HashMap_Put toyEnv fuel stateHole [1, 1] [104] 20 ≠ .ok r := by
  refine ⟨reachable_stateHole, ?_⟩
  intro fuel r
  cases fuel with
  | zero => intro h; cases h
  | succ f =>
    have h : HashMap_Put toyEnv (f + 1) stateHole [1, 1] [104] 20 = .error .nullDeref := rfl
    rw [h]
    intro h2
    cases h2

/-! ## Counters and coupling along `HashMap_Put` and `HashMap_Grow` -/

theorem occupied_eq (h : HashMap) : occupied h = occT h.left + occT h.right := by
  simp [occupied, occT, List.countP_append]

theorem occT_set (t : List KeyValue) (i : Nat) (s p : KeyValue) (hp : slotAt t i = .ok p) :
    occT (t.set i s) + (if p.key.isSome then 1 else 0)
      = occT t + (if s.key.isSome then 1 else 0) := by
  induction t generalizing i with
  | nil => simp [slotAt] at hp
  | cons x xs ih =>
    cases i with
    | zero =>
      simp [slotAt] at hp
      subst hp
      simp only [List.set_cons_zero, occT, List.countP_cons]
      omega
    | succ j =>
      simp [slotAt] at hp
      have := ih j (by simp [slotAt, hp])
      simp only [List.set_cons_succ, occT, List.countP_cons] at this ⊢
      omega

theorem copyPair_ok (dst src r : KeyValue) (h : copyPair dst src = .ok r) :
    ∃ k v, r = ⟨some k, some v⟩ ∧ dst.key ≠ none := by
  unfold copyPair memcpy at h
  cases hdk : dst.key <;> cases hsk : src.key <;> cases hdv : dst.value <;>
    cases hsv : src.value <;> simp [hdk, hsk, hdv, hsv] at h
  exact ⟨_, _, h.symm, by simp⟩

theorem coupled_set (h : HashMap) (hc : Coupled h) (l r : List KeyValue)
    (hl : ∀ s ∈ l, s ∈ h.left ∨ (s.key = none ↔ s.value = none))
    (hr : ∀ s ∈ r, s ∈ h.right ∨ (s.key = none ↔ s.value = none))
    (h1 : HashMap) (h1l : h1.left = l) (h1r : h1.right = r) : Coupled h1 := by
  intro s hs
  rw [h1l, h1r, List.mem_append] at hs
  rcases hs with hs | hs
  · rcases hl s hs with hm | hm
    · exact hc s (List.mem_append.mpr (Or.inl hm))
    · exact hm
  · rcases hr s hs with hm | hm
    · exact hc s (List.mem_append.mpr (Or.inr hm))
    · exact hm

theorem allocIfEmpty_cases (p : KeyValue) :
    ((allocIfEmpty p).2 = true ∧ p.key = none) ∨
    ((allocIfEmpty p).2 = false ∧ p.key ≠ none ∧ (allocIfEmpty p).1 = p) := by
  unfold allocIfEmpty
  by_cases hk : p.key = none
  · simp [hk]
  · simp [hk]

theorem evictEven_ok (env : Env) (h : HashMap) (key value : Bytes) (d : Displaced)
    (h1 : HashMap) (b : Bool) (he : evictEven env h key value d = .ok (h1, b)) :
    StepOK h h1 b := by
  unfold evictEven at he
  simp only at he
  cases hl : slotAt h.left (leftIndex env h key) with
  | error e => rw [hl] at he; cases he
  | ok left_pair =>
  rw [hl] at he
  simp only at he
  cases hpr : slotAt h.right (rightIndex env h key) with
  | error e => rw [hpr] at he; cases he
  | ok pair =>
  rw [hpr] at he
  simp only at he
  cases hpk : readKey pair with
  | error e => rw [hpk] at he; cases he
  | ok pk =>
  rw [hpk] at he
  simp only at he
  cases hr : slotAt h.right (rightIndex env h pk) with
  | error e => rw [hr] at he; cases he
  | ok right_pair =>
  rw [hr] at he
  simp only at he
  cases hc1 : copyPair (allocIfEmpty right_pair).1 left_pair with
  | error e => rw [hc1] at he; cases he
  | ok right_new =>
  rw [hc1] at he
  simp only at he
  cases hd : derefDisplaced { h with right := h.right.set (rightIndex env h pk) right_new }
      key value d with
  | error e => rw [hd] at he; cases he
  | ok dp =>
  rw [hd] at he
  simp only at he
  cases hc2 : copyPair left_pair dp with
  | error e => rw [hc2] at he; cases he
  | ok left_new =>
  rw [hc2] at he
  simp only at he
  obtain ⟨rk, rv, hrn, -⟩ := copyPair_ok _ _ _ hc1
  obtain ⟨lk, lv, hln, hlk⟩ := copyPair_ok _ _ _ hc2
  subst hln
  subst hrn
  have hoccL := occT_set h.left (leftIndex env h key) ⟨some lk, some lv⟩ left_pair hl
  have hoccR := occT_set h.right (rightIndex env h pk) ⟨some rk, some rv⟩ right_pair hr
  have hlsome : left_pair.key.isSome = true := by
    cases hk : left_pair.key with
    | none => exact absurd hk hlk
    | some x => rfl
  rw [hlsome] at hoccL
  simp only [Option.isSome_some, if_true] at hoccL hoccR
  have hcoupled : ∀ (sz : Nat), Coupled h →
      Coupled { h with right := h.right.set (rightIndex env h pk) ⟨some rk, some rv⟩,
                       left := h.left.set (leftIndex env h key) ⟨some lk, some lv⟩,
                       size := sz } := by
    intro sz hcp
    refine coupled_set h hcp _ _ ?_ ?_ _ rfl rfl
    · intro s hs
      rcases List.mem_or_eq_of_mem_set hs with hm | hm
      · exact Or.inl hm
      · right; rw [hm]; simp
    · intro s hs
      rcases List.mem_or_eq_of_mem_set hs with hm | hm
      · exact Or.inl hm
      · right; rw [hm]; simp
  rcases allocIfEmpty_cases right_pair with ⟨ha, hk⟩ | ⟨ha, hk, -⟩
  · rw [ha] at he
    simp only [if_true, Except.ok.injEq, Prod.mk.injEq] at he
    obtain ⟨rfl, rfl⟩ := he
    refine ⟨⟨rfl, rfl, rfl, rfl, rfl, rfl, rfl, by simp, by simp⟩, by simp, ?_, hcoupled _⟩
    rw [hk] at hoccR
    simp only [occupied_eq, if_true]
    simp only [Option.isSome_none] at hoccR
    simp at hoccR
    omega
  · rw [ha] at he
    simp only [Bool.false_eq_true, if_false, Except.ok.injEq, Prod.mk.injEq] at he
    obtain ⟨rfl, rfl⟩ := he
    refine ⟨⟨rfl, rfl, rfl, rfl, rfl, rfl, rfl, by simp, by simp⟩, by simp, ?_, hcoupled _⟩
    have hrsome : right_pair.key.isSome = true := by
      cases hk2 : right_pair.key with
      | none => exact absurd hk2 hk
      | some x => rfl
    rw [hrsome] at hoccR
    simp only [occupied_eq]
    simp at hoccR ⊢
    omega

theorem evictOdd_ok (env : Env) (h : HashMap) (key value : Bytes) (d : Displaced)
    (h1 : HashMap) (b : Bool) (he : evictOdd env h key value d = .ok (h1, b)) :
    StepOK h h1 b := by
  unfold evictOdd at he
  simp only at he
  cases hr : slotAt h.right (rightIndex env h key) with
  | error e => rw [hr] at he; cases he
  | ok right_pair =>
  rw [hr] at he
  simp only at he
  cases hpk : readKey right_pair with
  | error e => rw [hpk] at he; cases he
  | ok pk =>
  rw [hpk] at he
  simp only at he
  cases hl : slotAt h.left (leftIndex env h pk) with
  | error e => rw [hl] at he; cases he
  | ok left_pair =>
  rw [hl] at he
  simp only at he
  cases hc1 : copyPair left_pair (allocIfEmpty right_pair).1 with
  | error e => rw [hc1] at he; cases he
  | ok left_new =>
  rw [hc1] at he
  simp only at he
  cases hd : derefDisplaced { h with left := h.left.set (leftIndex env h pk) left_new }
      key value d with
  | error e => rw [hd] at he; cases he
  | ok dp =>
  rw [hd] at he
  simp only at he
  cases hc2 : copyPair (allocIfEmpty right_pair).1 dp with
  | error e => rw [hc2] at he; cases he
  | ok right_new =>
  rw [hc2] at he
  simp only at he
  obtain ⟨lk, lv, hln, hlk⟩ := copyPair_ok _ _ _ hc1
  obtain ⟨rk, rv, hrn, -⟩ := copyPair_ok _ _ _ hc2
  subst hln
  subst hrn
  have hoccL := occT_set h.left (leftIndex env h pk) ⟨some lk, some lv⟩ left_pair hl
  have hoccR := occT_set h.right (rightIndex env h key) ⟨some rk, some rv⟩ right_pair hr
  have hlsome : left_pair.key.isSome = true := by
    cases hk : left_pair.key with
    | none => exact absurd hk hlk
    | some x => rfl
  rw [hlsome] at hoccL
  simp only [Option.isSome_some, if_true] at hoccL hoccR
  have hcoupled : ∀ (sz : Nat), Coupled h →
      Coupled { h with left := h.left.set (leftIndex env h pk) ⟨some lk, some lv⟩,
                       right := h.right.set (rightIndex env h key) ⟨some rk, some rv⟩,
                       size := sz } := by
    intro sz hcp
    refine coupled_set h hcp _ _ ?_ ?_ _ rfl rfl
    · intro s hs
      rcases List.mem_or_eq_of_mem_set hs with hm | hm
      · exact Or.inl hm
      · right; rw [hm]; simp
    · intro s hs
      rcases List.mem_or_eq_of_mem_set hs with hm | hm
      · exact Or.inl hm
      · right; rw [hm]; simp
  rcases allocIfEmpty_cases right_pair with ⟨ha, hk⟩ | ⟨ha, hk, -⟩
  · rw [ha] at he
    simp only [if_true, Except.ok.injEq, Prod.mk.injEq] at he
    obtain ⟨rfl, rfl⟩ := he
    refine ⟨⟨rfl, rfl, rfl, rfl, rfl, rfl, rfl, by simp, by simp⟩, by simp, ?_, hcoupled _⟩
    rw [hk] at hoccR
    simp only [occupied_eq, if_true]
    simp only [Option.isSome_none] at hoccR
    simp at hoccR
    omega
  · rw [ha] at he
    simp only [Bool.false_eq_true, if_false, Except.ok.injEq, Prod.mk.injEq] at he
    obtain ⟨rfl, rfl⟩ := he
    refine ⟨⟨rfl, rfl, rfl, rfl, rfl, rfl, rfl, by simp, by simp⟩, by simp, ?_, hcoupled _⟩
    have hrsome : right_pair.key.isSome = true := by
      cases hk2 : right_pair.key with
      | none => exact absurd hk2 hk
      | some x => rfl
    rw [hrsome] at hoccR
    simp only [occupied_eq]
    simp at hoccR ⊢
    omega

theorem sameShape_refl (h : HashMap) : SameShape h h :=
  ⟨rfl, rfl, rfl, rfl, rfl, rfl, rfl, rfl, rfl⟩

theorem sameShape_trans {h h1 h2 : HashMap} (a : SameShape h h1) (b : SameShape h1 h2) :
    SameShape h h2 :=
  ⟨b.n_eq.trans a.n_eq, b.key_size_eq.trans a.key_size_eq,
    b.value_size_eq.trans a.value_size_eq, b.left_seed_0_eq.trans a.left_seed_0_eq,
    b.left_seed_1_eq.trans a.left_seed_1_eq, b.right_seed_0_eq.trans a.right_seed_0_eq,
    b.right_seed_1_eq.trans a.right_seed_1_eq, b.left_len.trans a.left_len,
    b.right_len.trans a.right_len⟩

theorem stepOK_refl (h : HashMap) : StepOK h h false :=
  ⟨sameShape_refl h, by simp, by simp, fun x => x⟩

theorem stepOK_after_idle {h h1 h2 : HashMap} {b : Bool} (a : StepOK h h1 false)
    (c : StepOK h1 h2 b) : StepOK h h2 b := by
  refine ⟨sameShape_trans a.shape c.shape, ?_, ?_, fun x => c.coupled (a.coupled x)⟩
  · have h1 := a.size_eq
    have h2 := c.size_eq
    simp at h1
    omega
  · have h1 := a.occ_le
    have h2 := c.occ_le
    simp at h1
    omega

theorem evictLoop_ok (env : Env) (key value : Bytes) (steps : Nat) :
    ∀ (i : Nat) (h : HashMap) (d : Displaced) (h1 : HashMap) (b : Bool),
      evictLoop env key value steps i h d = .ok (h1, b) → StepOK h h1 b := by
  induction steps with
  | zero =>
    intro i h d h1 b he
    simp only [evictLoop, Except.ok.injEq, Prod.mk.injEq] at he
    obtain ⟨rfl, rfl⟩ := he
    exact stepOK_refl h
  | succ s ih =>
    intro i h d h1 b he
    unfold evictLoop at he
    by_cases hi : i % 2 = 0
    · simp only [hi, if_true] at he
      cases hev : evictEven env h key value d with
      | error e => rw [hev] at he; cases he
      | ok r =>
        obtain ⟨h2, b2⟩ := r
        rw [hev] at he
        have hstep := evictEven_ok env h key value d h2 b2 hev
        cases b2 with
        | true =>
          simp only [Except.ok.injEq, Prod.mk.injEq] at he
          obtain ⟨rfl, rfl⟩ := he
          exact hstep
        | false =>
          simp only at he
          exact stepOK_after_idle hstep (ih _ _ _ _ _ he)
    · simp only [hi, if_false] at he
      cases hev : evictOdd env h key value d with
      | error e => rw [hev] at he; cases he
      | ok r =>
        obtain ⟨h2, b2⟩ := r
        rw [hev] at he
        have hstep := evictOdd_ok env h key value d h2 b2 hev
        cases b2 with
        | true =>
          simp only [Except.ok.injEq, Prod.mk.injEq] at he
          obtain ⟨rfl, rfl⟩ := he
          exact hstep
        | false =>
          simp only at he
          exact stepOK_after_idle hstep (ih _ _ _ _ _ he)

theorem putNoGrow_ok (env : Env) (h : HashMap) (key value : Bytes) (h1 : HashMap) (b : Bool)
    (he : putNoGrow env h key value = .ok (h1, b)) : StepOK h h1 b := by
  unfold putNoGrow at he
  simp only at he
  cases hl : slotAt h.left (leftIndex env h key) with
  | error e => rw [hl] at he; cases he
  | ok p =>
  rw [hl] at he
  simp only at he
  have hcl : ∀ (sz : Nat) (k : Option Bytes), (k = none ↔ (some value = none)) → Coupled h →
      Coupled { h with left := h.left.set (leftIndex env h key) ⟨k, some value⟩,
                       size := sz } := by
    intro sz k hk hcp
    refine coupled_set h hcp _ _ ?_ ?_ _ rfl rfl
    · intro s hs
      rcases List.mem_or_eq_of_mem_set hs with hm | hm
      · exact Or.inl hm
      · right; rw [hm]; exact hk
    · intro s hs
      exact Or.inl hs
  have hcr : ∀ (sz : Nat) (k : Option Bytes), (k = none ↔ (some value = none)) → Coupled h →
      Coupled { h with right := h.right.set (rightIndex env h key) ⟨k, some value⟩,
                       size := sz } := by
    intro sz k hk hcp
    refine coupled_set h hcp _ _ ?_ ?_ _ rfl rfl
    · intro s hs
      exact Or.inl hs
    · intro s hs
      rcases List.mem_or_eq_of_mem_set hs with hm | hm
      · exact Or.inl hm
      · right; rw [hm]; exact hk
  by_cases hk1 : p.key = none
  · simp only [hk1, if_true, Except.ok.injEq, Prod.mk.injEq] at he
    obtain ⟨rfl, rfl⟩ := he
    have hocc := occT_set h.left (leftIndex env h key) ⟨some key, some value⟩ p hl
    rw [hk1] at hocc
    refine ⟨⟨rfl, rfl, rfl, rfl, rfl, rfl, rfl, by simp, by simp⟩, by simp, ?_,
      hcl _ _ (by simp)⟩
    simp only [occupied_eq]
    simp at hocc ⊢
    omega
  · simp only [hk1, if_false] at he
    by_cases hk2 : p.key = some key
    · simp only [hk2, if_true, Except.ok.injEq, Prod.mk.injEq] at he
      obtain ⟨rfl, rfl⟩ := he
      have hocc := occT_set h.left (leftIndex env h key) ⟨some key, some value⟩ p hl
      rw [hk2] at hocc
      refine ⟨⟨rfl, rfl, rfl, rfl, rfl, rfl, rfl, by simp, by simp⟩, by simp, ?_,
        hcl _ _ (by simp)⟩
      simp only [occupied_eq]
      simp at hocc ⊢
      omega
    · simp only [hk2, if_false] at he
      cases hr : slotAt h.right (rightIndex env h key) with
      | error e => rw [hr] at he; cases he
      | ok q =>
      rw [hr] at he
      simp only at he
      by_cases hq1 : q.key = some key
      · simp only [hq1, if_true, Except.ok.injEq, Prod.mk.injEq] at he
        obtain ⟨rfl, rfl⟩ := he
        have hocc := occT_set h.right (rightIndex env h key) ⟨some key, some value⟩ q hr
        rw [hq1] at hocc
        refine ⟨⟨rfl, rfl, rfl, rfl, rfl, rfl, rfl, by simp, by simp⟩, by simp, ?_,
          hcr _ _ (by simp)⟩
        simp only [occupied_eq]
        simp at hocc ⊢
        omega
      · simp only [hq1, if_false] at he
        by_cases hq2 : q.key = none
        · simp only [hq2, if_true, Except.ok.injEq, Prod.mk.injEq] at he
          obtain ⟨rfl, rfl⟩ := he
          have hocc := occT_set h.right (rightIndex env h key) ⟨some key, some value⟩ q hr
          rw [hq2] at hocc
          refine ⟨⟨rfl, rfl, rfl, rfl, rfl, rfl, rfl, by simp, by simp⟩, by simp, ?_,
            hcr _ _ (by simp)⟩
          simp only [occupied_eq]
          simp at hocc ⊢
          omega
        · simp only [hq2, if_false] at he
          exact evictLoop_ok env key value _ _ _ _ _ _ he

theorem sum_slotOcc (t : List KeyValue) :
    ((List.range t.length).map (slotOcc t)).sum = occT t := by
  induction t with
  | nil => simp [occT]
  | cons x xs ih =>
    rw [List.length_cons, List.range_succ_eq_map, List.map_cons, List.map_map, List.sum_cons]
    have hfun : (slotOcc (x :: xs) ∘ Nat.succ) = slotOcc xs := by
      funext i
      simp [slotOcc]
    have h0 : slotOcc (x :: xs) 0 = if x.key.isSome then 1 else 0 := by
      simp [slotOcc]
    rw [hfun, ih, h0]
    simp only [occT, List.countP_cons]
    omega

theorem growCalls_range (h : HashMap) (hwf : WF h) :
    growCalls h (List.range h.n) = occupied h := by
  unfold growCalls
  rw [List.sum_map_add, occupied_eq]
  have hl := sum_slotOcc h.left
  have hr := sum_slotOcc h.right
  rw [hwf.1] at hl
  rw [hwf.2.1] at hr
  rw [hl, hr]

theorem occT_le_length (t : List KeyValue) : occT t ≤ t.length :=
  List.countP_le_length _

theorem occupied_le (h : HashMap) (hwf : WF h) : occupied h ≤ 2 * h.n := by
  rw [occupied_eq]
  have hl := occT_le_length h.left
  have hr := occT_le_length h.right
  rw [hwf.1] at hl
  rw [hwf.2.1] at hr
  omega

theorem growRel_refl (h : HashMap) : GrowRel h h 0 :=
  ⟨Nat.le_refl _, fun x => x, fun hw hj => ⟨hw, hj, by omega⟩⟩

theorem growRel_trans {h h1 h2 : HashMap} {c c1 : Nat} (a : GrowRel h h1 c)
    (b : GrowRel h1 h2 c1) : GrowRel h h2 (c + c1) := by
  refine ⟨Nat.le_trans a.n_le b.n_le, fun x => b.coupled (a.coupled x), ?_⟩
  intro hw hj
  obtain ⟨hw1, hj1, hs1⟩ := a.counted hw hj
  obtain ⟨hw2, hj2, hs2⟩ := b.counted hw1 hj1
  exact ⟨hw2, hj2, by omega⟩

theorem putPost_growRel {h h1 : HashMap} (a : PutPost h h1) : GrowRel h h1 1 :=
  ⟨a.n_le, a.coupled, fun hw hj =>
    ⟨(a.counted hw hj).1, (a.counted hw hj).2.1, (a.counted hw hj).2.2.1⟩⟩

/-- One optional re-insertion of the loop of `HashMap_Grow`. -/
theorem growSlot_rel (put : HashMap → Bytes → Bytes → Nat → Except Abort (HashMap × Nat))
    (hput : ∀ h k v g h1 g1, put h k v g = .ok (h1, g1) → PutPost h h1)
    (s : KeyValue) (acc acc1 : HashMap × Nat)
    (he : (match s.key with
          | none => .ok acc
          | some k =>
            match s.value with
            | none => .error .nullDeref
            | some v => put acc.1 k v acc.2 : Except Abort (HashMap × Nat)) = .ok acc1) :
    GrowRel acc.1 acc1.1 (if s.key.isSome then 1 else 0) := by
  cases hk : s.key with
  | none =>
    rw [hk] at he
    simp only [Except.ok.injEq] at he
    subst he
    simpa using growRel_refl acc.1
  | some k =>
    rw [hk] at he
    cases hv : s.value with
    | none => rw [hv] at he; cases he
    | some v =>
      rw [hv] at he
      simp only at he
      obtain ⟨a1, g1⟩ := acc1
      simpa using putPost_growRel (hput _ _ _ _ _ _ he)

theorem slotOcc_of_slotAt (t : List KeyValue) (i : Nat) (s : KeyValue)
    (h : slotAt t i = .ok s) : slotOcc t i = if s.key.isSome then 1 else 0 := by
  unfold slotAt at h
  unfold slotOcc
  cases ht : t[i]? with
  | none => rw [ht] at h; cases h
  | some x =>
    rw [ht] at h
    simp only [Except.ok.injEq] at h
    subst h
    rfl

theorem growLoop_rel (put : HashMap → Bytes → Bytes → Nat → Except Abort (HashMap × Nat))
    (hput : ∀ h k v g h1 g1, put h k v g = .ok (h1, g1) → PutPost h h1)
    (h : HashMap) (is : List Nat) :
    ∀ (acc acc1 : HashMap × Nat), growLoop put h is acc = .ok acc1 →
      GrowRel acc.1 acc1.1 (growCalls h is) := by
  induction is with
  | nil =>
    intro acc acc1 he
    simp only [growLoop, Except.ok.injEq] at he
    subst he
    simpa [growCalls] using growRel_refl acc.1
  | cons i rest ih =>
    intro acc acc1 he
    unfold growLoop at he
    cases hl : slotAt h.left i with
    | error e => rw [hl] at he; cases he
    | ok left =>
    rw [hl] at he
    simp only at he
    cases hr : slotAt h.right i with
    | error e => rw [hr] at he; cases he
    | ok right =>
    rw [hr] at he
    simp only at he
    split at he
    · cases he
    · rename_i acc2 hleft
      split at he
      · cases he
      · rename_i acc3 hright
        have r1 := growSlot_rel put hput left acc acc2 hleft
        have r2 := growSlot_rel put hput right acc2 acc3 hright
        have r3 := ih acc3 acc1 he
        have hcalls : growCalls h (i :: rest)
            = (if left.key.isSome then 1 else 0) + (if right.key.isSome then 1 else 0)
              + growCalls h rest := by
          simp only [growCalls, List.map_cons, List.sum_cons]
          rw [slotOcc_of_slotAt _ _ _ hl, slotOcc_of_slotAt _ _ _ hr]
        rw [hcalls]
        exact growRel_trans (growRel_trans r1 r2) r3

theorem init_n (env : Env) (n ks vs g : Nat) : (_HashMap_Init env n ks vs g).1.n = n := rfl

theorem init_size (env : Env) (n ks vs g : Nat) : (_HashMap_Init env n ks vs g).1.size = 0 :=
  rfl

theorem init_wf (env : Env) (n ks vs g : Nat) (hn : 0 < n) :
    WF (_HashMap_Init env n ks vs g).1 := by
  simp [WF, _HashMap_Init, hn]

theorem init_coupled (env : Env) (n ks vs g : Nat) : Coupled (_HashMap_Init env n ks vs g).1 := by
  intro s hs
  simp only [_HashMap_Init, List.mem_append, List.mem_replicate] at hs
  rcases hs with ⟨-, rfl⟩ | ⟨-, rfl⟩ <;> simp

theorem init_occupied (env : Env) (n ks vs g : Nat) :
    occupied (_HashMap_Init env n ks vs g).1 = 0 := by
  simp [occupied, _HashMap_Init, List.countP_eq_zero, List.mem_replicate]

theorem growWith_rel (put : HashMap → Bytes → Bytes → Nat → Except Abort (HashMap × Nat))
    (hput : ∀ h k v g h1 g1, put h k v g = .ok (h1, g1) → PutPost h h1)
    (env : Env) (h : HashMap) (g : Nat) (h1 : HashMap) (g1 : Nat)
    (he : growWith put env h g = .ok (h1, g1)) :
    2 * h.n ≤ h1.n ∧ Coupled h1 ∧
      (WF h → WF h1 ∧ occupied h1 ≤ h1.size ∧ h1.size ≤ occupied h) := by
  unfold growWith at he
  have r := growLoop_rel put hput h (List.range h.n) _ _ he
  refine ⟨?_, r.coupled (init_coupled _ _ _ _ _), ?_⟩
  · have := r.n_le
    rw [init_n] at this
    exact this
  · intro hwf
    have hw0 : WF (_HashMap_Init env (2 * h.n) h.key_size h.value_size g).1 :=
      init_wf _ _ _ _ _ (by have := hwf.2.2; omega)
    obtain ⟨hw1, hj1, hs1⟩ := r.counted hw0 (by rw [init_occupied]; exact Nat.zero_le _)
    rw [init_size, growCalls_range h hwf] at hs1
    exact ⟨hw1, hj1, by simpa using hs1⟩

theorem stepOK_wf {h h1 : HashMap} {b : Bool} (a : StepOK h h1 b) (hw : WF h) : WF h1 := by
  obtain ⟨h1l, h1r, hn⟩ := hw
  refine ⟨?_, ?_, ?_⟩
  · rw [a.shape.left_len, a.shape.n_eq]; exact h1l
  · rw [a.shape.right_len, a.shape.n_eq]; exact h1r
  · rw [a.shape.n_eq]; exact hn

theorem put_post (env : Env) (fuel : Nat) :
    ∀ (h : HashMap) (k v : Bytes) (g : Nat) (h1 : HashMap) (g1 : Nat),
      HashMap_Put env fuel h k v g = .ok (h1, g1) → PutPost h h1 := by
  induction fuel with
  | zero =>
    intro h k v g h1 g1 he
    simp [HashMap_Put] at he
  | succ f ih =>
    intro h k v g h1 g1 he
    unfold HashMap_Put at he
    simp only at he
    -- the map after the load check
    have hload : ∀ (ha : HashMap) (ga : Nat),
        (if h.size > h.n / 2 then growWith (HashMap_Put env f) env h g else .ok (h, g))
          = .ok (ha, ga) →
        h.n ≤ ha.n ∧ (h.size > h.n / 2 → 2 * h.n ≤ ha.n) ∧ (Coupled h → Coupled ha) ∧
          (WF h → occupied h ≤ h.size →
            WF ha ∧ occupied ha ≤ ha.size ∧ ha.size ≤ h.size ∧ ha.size ≤ ha.n) := by
      intro ha ga hl
      by_cases hs : h.size > h.n / 2
      · simp only [hs, if_true] at hl
        obtain ⟨hn, hc, hw⟩ := growWith_rel _ ih env h g ha ga hl
        refine ⟨by omega, fun _ => hn, fun _ => hc, ?_⟩
        intro hwf hj
        obtain ⟨hw1, hj1, hs1⟩ := hw hwf
        have := occupied_le h hwf
        exact ⟨hw1, hj1, by omega, by omega⟩
      · simp only [hs, if_false, Except.ok.injEq, Prod.mk.injEq] at hl
        obtain ⟨rfl, rfl⟩ := hl
        refine ⟨Nat.le_refl _, fun x => absurd x hs, fun x => x, ?_⟩
        intro hwf hj
        exact ⟨hwf, hj, Nat.le_refl _, by omega⟩
    split at he
    · cases he
    · rename_i ha ga hl
      obtain ⟨hn, hd, hc, hw⟩ := hload ha ga hl
      split at he
      · cases he
      · rename_i hb hstep
        simp only [Except.ok.injEq, Prod.mk.injEq] at he
        obtain ⟨rfl, rfl⟩ := he
        have st := putNoGrow_ok env ha k v _ _ hstep
        refine ⟨?_, ?_, fun x => st.coupled (hc x), ?_⟩
        · rw [st.shape.n_eq]; exact hn
        · intro x; rw [st.shape.n_eq]; exact hd x
        · intro hwf hj
          obtain ⟨hw1, hj1, hs1, hs2⟩ := hw hwf hj
          have h1 := st.size_eq
          have h2 := st.occ_le
          have h3 := st.shape.n_eq
          simp only [if_true] at h1 h2
          exact ⟨stepOK_wf st hw1, by omega, by omega, by omega⟩
      · rename_i hb hstep
        have st := putNoGrow_ok env ha k v _ _ hstep
        split at he
        · cases he
        · rename_i hc3 g3 hgrow
          obtain ⟨hn3, hc3c, hw3⟩ := growWith_rel _ ih env hb ga hc3 g3 hgrow
          have post := ih hc3 k v g3 h1 g1 he
          have hbn := st.shape.n_eq
          refine ⟨?_, ?_, fun _ => post.coupled hc3c, ?_⟩
          · have := post.n_le; omega
          · intro x; have := post.n_le; have := hd x; omega
          · intro hwf hj
            obtain ⟨hw1, hj1, hs1, hs2⟩ := hw hwf hj
            have hwb := stepOK_wf st hw1
            obtain ⟨hw4, hj4, hs4⟩ := hw3 hwb
            obtain ⟨hw5, hj5, hs5, hs6⟩ := post.counted hw4 hj4
            have h1 := st.size_eq
            have h2 := st.occ_le
            simp at h1 h2
            exact ⟨hw5, hj5, by omega, hs6⟩

/-! ## Invariants proved for every reachable state -/

theorem remove_post (env : Env) (h : HashMap) (key : Bytes) (rc : Nat) (h1 : HashMap)
    (he : HashMap_Remove env h key = .ok (rc, h1)) :
    SameShape h h1 ∧ (Coupled h → Coupled h1) ∧
      ((rc = 1 ∧ h1 = h) ∨
       (rc = 0 ∧ h1.size = decSize h.size ∧ occupied h1 + 1 = occupied h)) := by
  unfold HashMap_Remove at he
  cases hl : slotAt h.left (leftIndex env h key) with
  | error e => rw [hl] at he; cases he
  | ok p =>
  rw [hl] at he
  simp only at he
  by_cases hk : p.key = some key
  · simp only [hk, if_true, Except.ok.injEq, Prod.mk.injEq] at he
    obtain ⟨rfl, rfl⟩ := he
    have hocc := occT_set h.left (leftIndex env h key) ⟨none, none⟩ p hl
    rw [hk] at hocc
    refine ⟨⟨rfl, rfl, rfl, rfl, rfl, rfl, rfl, by simp, by simp⟩, ?_, Or.inr ⟨rfl, rfl, ?_⟩⟩
    · intro hcp
      refine coupled_set h hcp _ _ ?_ ?_ _ rfl rfl
      · intro s hs
        rcases List.mem_or_eq_of_mem_set hs with hm | hm
        · exact Or.inl hm
        · right; rw [hm]
      · intro s hs
        exact Or.inl hs
    · simp only [occupied_eq]
      simp at hocc ⊢
      omega
  · simp only [hk, if_false] at he
    cases hr : slotAt h.right (rightIndex env h key) with
    | error e => rw [hr] at he; cases he
    | ok q =>
    rw [hr] at he
    simp only at he
    by_cases hq : q.key = some key
    · simp only [hq, if_true, Except.ok.injEq, Prod.mk.injEq] at he
      obtain ⟨rfl, rfl⟩ := he
      have hocc := occT_set h.right (rightIndex env h key) ⟨none, none⟩ q hr
      rw [hq] at hocc
      refine ⟨⟨rfl, rfl, rfl, rfl, rfl, rfl, rfl, by simp, by simp⟩, ?_, Or.inr ⟨rfl, rfl, ?_⟩⟩
      · intro hcp
        refine coupled_set h hcp _ _ ?_ ?_ _ rfl rfl
        · intro s hs
          exact Or.inl hs
        · intro s hs
          rcases List.mem_or_eq_of_mem_set hs with hm | hm
          · exact Or.inl hm
          · right; rw [hm]
      · simp only [occupied_eq]
        simp at hocc ⊢
        omega
    · simp only [hq, if_false, Except.ok.injEq, Prod.mk.injEq] at he
      obtain ⟨rfl, rfl⟩ := he
      exact ⟨sameShape_refl _, fun x => x, Or.inl ⟨rfl, rfl⟩⟩

theorem sameShape_wf {h h1 : HashMap} (a : SameShape h h1) (hw : WF h) : WF h1 := by
  obtain ⟨h1l, h1r, hn⟩ := hw
  refine ⟨?_, ?_, ?_⟩
  · rw [a.left_len, a.n_eq]; exact h1l
  · rw [a.right_len, a.n_eq]; exact h1r
  · rw [a.n_eq]; exact hn

/-- Invariants of the reachable states. -/
theorem reachable_inv (env : Env) (h : HashMap) (g : Nat) (hr : Reachable env h g) :
    WF h ∧ Coupled h ∧ occupied h ≤ h.size ∧ h.size ≤ h.n + 1 := by
  induction hr with
  | init ks vs g0 =>
    refine ⟨init_wf _ _ _ _ _ (by decide), init_coupled _ _ _ _ _, ?_, ?_⟩
    · simp only [HashMap_Init]
      rw [init_occupied]
      exact Nat.zero_le _
    · simp only [HashMap_Init]
      rw [init_size]
      exact Nat.zero_le _
  | put fuel key value _ hput ih =>
    obtain ⟨hw, hc, hj, -⟩ := ih
    have post := put_post env fuel _ _ _ _ _ _ hput
    obtain ⟨hw1, hj1, -, hs1⟩ := post.counted hw hj
    exact ⟨hw1, post.coupled hc, hj1, hs1⟩
  | remove key _ hrem ih =>
    obtain ⟨hw, hc, hj, hs⟩ := ih
    obtain ⟨sh, hcp, hcase⟩ := remove_post env _ _ _ _ hrem
    refine ⟨sameShape_wf sh hw, hcp hc, ?_⟩
    rcases hcase with ⟨-, rfl⟩ | ⟨-, hsz, hocc⟩
    · exact ⟨hj, hs⟩
    · have hn := sh.n_eq
      unfold decSize at hsz
      split at hsz
      · omega
      · constructor <;> omega

/-- C11: the capacity is monotone and doubles at the load threshold.  For every
map state and every call of `HashMap_Put` that returns, `n` afterwards is at
least `n` before, and at least twice `n` before when `size > n/2` held on
entry; `HashMap_Remove` leaves `n` unchanged (`HashMap_Get` yields a return
code and a buffer only, it has no access to write the map). -/
theorem capacity_monotone (env : Env) (fuel : Nat) (h : HashMap) (k v : Bytes) (g : Nat)
    (h1 : HashMap) (g1 : Nat) (hput : HashMap_Put env fuel h k v g = .ok (h1, g1)) :
    h.n ≤ h1.n ∧ (h.size > h.n / 2 → 2 * h.n ≤ h1.n) ∧
    (∀ key rc h2, HashMap_Remove env h key = .ok (rc, h2) → h2.n = h.n) :=
  ⟨(put_post env fuel h k v g h1 g1 hput).n_le,
    (put_post env fuel h k v g h1 g1 hput).n_double,
    fun key rc h2 hrem => (remove_post env h key rc h2 hrem).1.n_eq⟩

/-- Instance of `capacity_monotone`: the update of `keyX` on `stateXYZ17`, which
runs Grow. -/
theorem capacity_monotone_witness :
    HashMap_Put toyEnv 2 stateXYZ17 keyX [11] 20 = .ok (grownXYZ 4 [11], 40) ∧
    (stateXYZ17.n ≤ (grownXYZ 4 [11]).n ∧
      (stateXYZ17.size > stateXYZ17.n / 2 → 2 * stateXYZ17.n ≤ (grownXYZ 4 [11]).n) ∧
      (∀ key rc h2, HashMap_Remove toyEnv stateXYZ17 key = .ok (rc, h2) →
        h2.n = stateXYZ17.n)) :=
  ⟨by decide, capacity_monotone toyEnv 2 stateXYZ17 keyX [11] 20 (grownXYZ 4 [11]) 40
    (by decide)⟩

/-- C12: in every map state reachable from `HashMap_Init` by calls of
`HashMap_Put` and `HashMap_Remove`, `size <= 2 * n`. -/
theorem size_le_two_n (env : Env) (h : HashMap) (g : Nat) (hr : Reachable env h g) :
    h.size ≤ 2 * h.n := by
  obtain ⟨hw, -, -, hs⟩ := reachable_inv env h g hr
  have := hw.2.2
  omega

/-- Instance of `size_le_two_n` on the reachable state `stateXYZ17`. -/
theorem size_le_two_n_witness :
    Reachable toyEnv stateXYZ17 20 ∧ stateXYZ17.size ≤ 2 * stateXYZ17.n :=
  ⟨reachable_stateXYZ17, size_le_two_n toyEnv stateXYZ17 20 reachable_stateXYZ17⟩

/-- C13: in every map state reachable from `HashMap_Init` by returning calls of
`HashMap_Put` and `HashMap_Remove`, every slot of both tables has its key
present exactly when its value is present.  Hence a candidate slot that holds
the key of an update has a value buffer (the `value == NULL` branches are not
taken), also in the map that Grow builds at the load check. -/
theorem slots_coupled (env : Env) (h : HashMap) (g : Nat) (hr : Reachable env h g) :
    Coupled h ∧
    (∀ key pair, (slotAt h.left (leftIndex env h key) = .ok pair ∨
        slotAt h.right (rightIndex env h key) = .ok pair) →
      pair.key = some key → pair.value ≠ none) ∧
    (∀ fuel h1 g1, HashMap_Grow env fuel h g = .ok (h1, g1) → Coupled h1) := by
  have hc := (reachable_inv env h g hr).2.1
  refine ⟨hc, ?_, ?_⟩
  · intro key pair hs hk hv
    have hmem : pair ∈ h.left ++ h.right := by
      rcases hs with hs | hs
      · refine List.mem_append.mpr (Or.inl ?_)
        unfold slotAt at hs
        cases ht : h.left[leftIndex env h key]? with
        | none => rw [ht] at hs; cases hs
        | some x =>
          rw [ht] at hs
          simp only [Except.ok.injEq] at hs
          subst hs
          exact List.getElem?_mem ht
      · refine List.mem_append.mpr (Or.inr ?_)
        unfold slotAt at hs
        cases ht : h.right[rightIndex env h key]? with
        | none => rw [ht] at hs; cases hs
        | some x =>
          rw [ht] at hs
          simp only [Except.ok.injEq] at hs
          subst hs
          exact List.getElem?_mem ht
    have := (hc pair hmem).mpr hv
    rw [hk] at this
    cases this
  · intro fuel h1 g1 hg
    exact (growWith_rel _ (put_post env fuel) env h g h1 g1 hg).2.1

/-- Instance of `slots_coupled` on the reachable state `stateABC`. -/
theorem slots_coupled_witness :
    Reachable toyEnv stateABC 20 ∧
    (Coupled stateABC ∧
    (∀ key pair, (slotAt stateABC.left (leftIndex toyEnv stateABC key) = .ok pair ∨
        slotAt stateABC.right (rightIndex toyEnv stateABC key) = .ok pair) →
      pair.key = some key → pair.value ≠ none) ∧
    (∀ fuel h1 g1, HashMap_Grow toyEnv fuel stateABC 20 = .ok (h1, g1) → Coupled h1)) :=
  ⟨reachable_stateABC, slots_coupled toyEnv stateABC 20 reachable_stateABC⟩

/-- C18: `size` never undercounts.  In every map state reachable from
`HashMap_Init` by returning calls of `HashMap_Put` and `HashMap_Remove`,
`size` is at least the number of occupied slots of both tables; hence when
`HashMap_Remove` finds a key, `size >= 1` and the decrement does not wrap. -/
theorem size_never_undercounts (env : Env) (h : HashMap) (g : Nat)
    (hr : Reachable env h g) :
    occupied h ≤ h.size ∧
    (∀ key h1, HashMap_Remove env h key = .ok (0, h1) →
      1 ≤ h.size ∧ h1.size = h.size - 1) := by
  obtain ⟨-, -, hj, -⟩ := reachable_inv env h g hr
  refine ⟨hj, ?_⟩
  intro key h1 hrem
  obtain ⟨-, -, hcase⟩ := remove_post env _ _ _ _ hrem
  rcases hcase with ⟨h0, -⟩ | ⟨-, hsz, hocc⟩
  · cases h0
  · have hpos : ¬ (h.size = 0) := by omega
    simp only [decSize, hpos, if_false] at hsz
    omega

/-- Instance of `size_never_undercounts` on the reachable state `stateDup`. -/
theorem size_never_undercounts_witness :
    Reachable toyEnv stateDup 20 ∧
    (occupied stateDup ≤ stateDup.size ∧
    (∀ key h1, HashMap_Remove toyEnv stateDup key = .ok (0, h1) →
      1 ≤ stateDup.size ∧ h1.size = stateDup.size - 1)) :=
  ⟨reachable_stateDup, size_never_undercounts toyEnv stateDup 20 reachable_stateDup⟩

end Cdsl
